import Mathlib

/-!
Verification of the schema-driven flatten/unflatten engine and the
multi-agent grouping/padding layer of `pufferlib/emulation.py`.

The embedding models:
* gym-style space descriptions (`Space`): `Box`, `Discrete`, `MultiDiscrete`,
  `Tuple`, `Dict` — the four node kinds of the data model (with the two
  discrete leaf flavours);
* nested data samples (`Sample`): numpy arrays (shape plus row-major data,
  with exact rational elements), plain python integers, tuples and dicts;
* the functions `flatten_space`, `python_flatten`, `python_unflatten`,
  `concatenate`, `split`, `convert_to_multidiscrete`, `pad_agent_data`,
  `pad_to_const_num_agents`, `group_into_teams`, `ungroup_from_teams`,
  `check_teams`, and the guard logic of `GymPufferEnv.step`,
  `PettingZooPufferEnv.step`, `PettingZooPufferEnv.observation_space` /
  `action_space` and `PettingZooPufferEnv.__init__`.

Machine numerics are modelled exactly: array elements are rationals, numpy
`astype` to an integer dtype truncates toward zero, and python `int()` of a
size-one array truncates toward zero.  Fallible operations (slicing,
reshaping, `np.concatenate`, exceptions raised by the adapters) return
`Option`/`Except`.
-/

namespace Emulation

/-- Element dtypes that occur in the engine: floating and integer. -/
inductive Dtype where
  | float64
  | int64
deriving DecidableEq, Repr

/-- Truncation toward zero, the semantics of numpy `astype` to an integer
dtype and of python `int()` on a numeric value. -/
def qtruncZ (q : ℚ) : ℤ := if 0 ≤ q then ⌊q⌋ else ⌈q⌉

/-- Casting one element to a dtype (`astype` semantics, exact model). -/
def castQ : Dtype → ℚ → ℚ
  | .float64, q => q
  | .int64, q => (qtruncZ q : ℚ)

/-- Schema nodes: the four node kinds of the data model (leaf-range,
categorical, vector-categorical, tuple container, mapping container),
mirroring `gym.spaces.Box` (shape and dtype; bounds are irrelevant to the
verified functions), `Discrete`, `MultiDiscrete`, `Tuple`, `Dict`. -/
inductive Space where
  | box (shape : List Nat) (dtype : Dtype)
  | discrete (n : Nat)
  | multidiscrete (nvec : List Nat)
  | tup (children : List Space)
  | dict (children : List (String × Space))
deriving Repr

/-- Nested data samples: numpy arrays (shape, row-major data), plain python
ints (`Discrete` samples), tuples and (ordered) dicts. -/
inductive Sample where
  | arr (shape : List Nat) (data : List ℚ)
  | intS (v : ℤ)
  | tupS (elems : List Sample)
  | dictS (elems : List (String × Sample))
deriving Repr

/-- Product of the dimensions of a shape (`np.prod(shape)`, with `np.prod(()) = 1`). -/
def listProd : List Nat → Nat
  | [] => 1
  | d :: rest => d * listProd rest

/-- The `subspace.shape` of leaf spaces: `Box.shape`, `Discrete.shape = ()`,
`MultiDiscrete.shape = (len(nvec),)`.  `none` for containers, whose gym
`.shape` is `None` (feeding it to `np.prod` raises). -/
def leafShapeDtype : Space → Option (List Nat × Dtype)
  | .box sh dt => some (sh, dt)
  | .discrete _ => some ([], .int64)
  | .multidiscrete nv => some ([nv.length], .int64)
  | .tup _ => none
  | .dict _ => none

/-- Whether a space node is a leaf (non-container) kind. -/
def isLeafSp : Space → Bool
  | .box _ _ => true
  | .discrete _ => true
  | .multidiscrete _ => true
  | .tup _ => false
  | .dict _ => false

/-- Element count of a leaf space, `int(np.prod(subspace.shape))`. -/
def szOf : Space → Nat
  | .box sh _ => listProd sh
  | .discrete _ => 1
  | .multidiscrete nv => nv.length
  | .tup _ => 0
  | .dict _ => 0

/-! ### `flatten_space` (source lines 416-429)

The source accumulates results into a python dict keyed by the generated
path, so a repeated path overwrites the stored leaf in place.  `dictInsert`
is python dict assignment: it replaces the value at the original position of the key when the key is present, and appends otherwise. -/

/-- Python dict assignment `m[k] = v` on an association list. -/
def dictInsert (m : List (String × Space)) (k : String) (v : Space) : List (String × Space) :=
  if m.any (fun p => p.1 = k) then
    m.map (fun p => if p.1 = k then (k, v) else p)
  else m ++ [(k, v)]

mutual

/-- The recursion helper of `flatten_space`: walks the space, threading the
accumulated flat dict. -/
def flattenSpaceAux : Space → String → List (String × Space) → List (String × Space)
  | .tup cs, key, flat => flattenSpaceTup cs 0 key flat
  | .dict cs, key, flat => flattenSpaceDict cs key flat
  | s, key, flat => dictInsert flat (key ++ "V") s

/-- Iteration over `enumerate(current)` for a `Tuple` space. -/
def flattenSpaceTup : List Space → Nat → String → List (String × Space) → List (String × Space)
  | [], _, _, flat => flat
  | c :: rest, i, key, flat =>
      flattenSpaceTup rest (i + 1) key (flattenSpaceAux c (key ++ "T" ++ toString i ++ ".") flat)

/-- Iteration over `current.items()` for a `Dict` space. -/
def flattenSpaceDict : List (String × Space) → String → List (String × Space) → List (String × Space)
  | [], _, flat => flat
  | (k, c) :: rest, key, flat =>
      flattenSpaceDict rest key (flattenSpaceAux c (key ++ "D" ++ k ++ ".") flat)

end

/-- Source `flatten_space(space)`: the ordered flat path -> leaf mapping. -/
def flatten_space (s : Space) : List (String × Space) := flattenSpaceAux s "" []

mutual

/-- Append-semantics leaf listing of a schema: the `(path, leaf)` pairs in
traversal order, without the dict collapse (which only differs from
`flatten_space` when two leaves generate the same path). -/
def flatLeaves : Space → String → List (String × Space)
  | .tup cs, key => flatLeavesTup cs 0 key
  | .dict cs, key => flatLeavesDict cs key
  | s, key => [(key ++ "V", s)]

def flatLeavesTup : List Space → Nat → String → List (String × Space)
  | [], _, _ => []
  | c :: rest, i, key =>
      flatLeaves c (key ++ "T" ++ toString i ++ ".") ++ flatLeavesTup rest (i + 1) key

def flatLeavesDict : List (String × Space) → String → List (String × Space)
  | [], _ => []
  | (k, c) :: rest, key =>
      flatLeaves c (key ++ "D" ++ k ++ ".") ++ flatLeavesDict rest key

end

mutual

/-- Spec-level key grammar (§3 "Flat key" and §4.1): depth-first pre-order
traversal, each tuple child appends `T{index}.`, each mapping child appends
`D{key}.`, and a leaf terminates the path with `V`.  Built compositionally
(bottom-up), to be compared with the accumulator-style source function. -/
def specPaths : Space → List String
  | .tup cs => specPathsTup cs 0
  | .dict cs => specPathsDict cs
  | _ => ["V"]

def specPathsTup : List Space → Nat → List String
  | [], _ => []
  | c :: rest, i =>
      (specPaths c).map (fun p => "T" ++ toString i ++ "." ++ p) ++ specPathsTup rest (i + 1)

def specPathsDict : List (String × Space) → List String
  | [] => []
  | (k, c) :: rest =>
      (specPaths c).map (fun p => "D" ++ k ++ "." ++ p) ++ specPathsDict rest

end

/-! ### `python_flatten` (source lines 431-446) -/

mutual

/-- Source `python_flatten(sample)`: depth-first walk collecting the leaf values as
numpy arrays; a non-array leaf (a python int from a `Discrete` sample) is
wrapped as `np.array([current])`, a one-element array. -/
def python_flatten : Sample → List Sample
  | .tupS es => pythonFlattenTup es
  | .dictS es => pythonFlattenDict es
  | .arr sh d => [.arr sh d]
  | .intS v => [.arr [1] [(v : ℚ)]]

def pythonFlattenTup : List Sample → List Sample
  | [] => []
  | e :: rest => python_flatten e ++ pythonFlattenTup rest

def pythonFlattenDict : List (String × Sample) → List Sample
  | [] => []
  | (_, e) :: rest => python_flatten e ++ pythonFlattenDict rest

end

/-! ### `concatenate` (source lines 466-472) -/

/-- Models `e.ravel() if isinstance(e, np.ndarray) else np.array([e])`: the 1-D data
contributed by one flat leaf value.  `none` on a container value, which is not
a numeric leaf (outside the numeric data model of the engine). -/
def ravelOrWrap : Sample → Option (List ℚ)
  | .arr _ d => some d
  | .intS v => some [(v : ℚ)]
  | _ => none

/-- Source `concatenate(flat_sample)`: a single-entry map short-circuits to its raw
value; otherwise the raveled leaf values are concatenated into one 1-D array.
`np.concatenate([])` raises, hence `none` on the empty map. -/
def concatenate : List Sample → Option Sample
  | [] => none
  | [x] => some x
  | xs => (xs.mapM ravelOrWrap).map (fun ds => Sample.arr [ds.flatten.length] ds.flatten)

/-! ### `split` (source lines 474-498), unbatched mode

`split` walks the flat leaf-map in order, slicing `stacked_sample[ptr:ptr+sz]`
for each leaf, reshaping to the leaf shape (`()` promoted to `(1,)`),
casting to the leaf dtype, and coercing a `Discrete` leaf to a plain int.
The claims under verification fix `batched=False`, which is the branch
modelled here. -/

/-- numpy basic slicing `x[a:b]` along axis 0: bounds are clamped to the
leading dimension; slicing a 0-d array (or a non-array) raises. -/
def slice0 : Sample → Nat → Nat → Option Sample
  | .arr [] _, _, _ => none
  | .arr (d0 :: rest) data, a, b =>
      let rowSz := listProd rest
      let lo := min a d0
      let hi := min b d0
      some (.arr ((hi - lo) :: rest) ((data.drop (lo * rowSz)).take ((hi - lo) * rowSz)))
  | _, _, _ => none

/-- numpy `reshape`, which requires the exact element count. -/
def reshape (s : Sample) (sh : List Nat) : Option Sample :=
  match s with
  | .arr _ d => if d.length = listProd sh then some (.arr sh d) else none
  | _ => none

/-- numpy `astype`: cast every element to the dtype. -/
def astype (s : Sample) (dt : Dtype) : Sample :=
  match s with
  | .arr sh d => .arr sh (d.map (castQ dt))
  | s => s

/-- python `int(samp[0])` on a 1-D array. -/
def intOfFirst : Sample → Option ℤ
  | .arr [_] (q :: _) => some (qtruncZ q)
  | _ => none

/-- The loop body of `split` over the remaining flat leaf-map, with the
running offset `ptr`. -/
def splitGo (stacked : Sample) : List (String × Space) → Nat → Option (List (String × Sample))
  | [], _ => some []
  | (key, sub) :: rest, ptr => do
      let (shape, typ) ← leafShapeDtype sub
      let sz := listProd shape
      let shape2 := if shape = [] then [1] else shape
      let sl ← slice0 stacked ptr (ptr + sz)
      let rs ← reshape sl shape2
      let samp := astype rs typ
      let v ← match sub with
        | .discrete _ => (intOfFirst samp).map Sample.intS
        | _ => some samp
      let tail ← splitGo stacked rest (ptr + sz)
      some ((key, v) :: tail)

/-- Source `split(stacked_sample, flat_space, batched=False)`. -/
def split (stacked : Sample) (flatSpace : List (String × Space)) : Option (List (String × Sample)) :=
  splitGo stacked flatSpace 0

/-! ### `python_unflatten` (source lines 448-464)

The source threads a mutable index `idx` through the recursion; here the
cursor is passed and returned explicitly. -/

/-- python `int(x)` on a leaf value: exact on a python int, truncation on a
size-one array; raises (`none`) otherwise. -/
def intCast : Sample → Option ℤ
  | .intS v => some v
  | .arr _ [q] => some (qtruncZ q)
  | _ => none

mutual

/-- The recursion helper of `python_unflatten`: rebuilds the nested structure
from the ordered leaf values, returning the value together with the advanced
cursor.  A cursor past the end of `flat` raises (`none`). -/
def pythonUnflattenAux (flat : List Sample) : Space → Nat → Option (Sample × Nat)
  | .tup cs, i => (pythonUnflattenTup flat cs i).map (fun p => (Sample.tupS p.1, p.2))
  | .dict cs, i => (pythonUnflattenDict flat cs i).map (fun p => (Sample.dictS p.1, p.2))
  | .discrete _, i => (flat.get? i).bind (fun v => (intCast v).map (fun z => (Sample.intS z, i + 1)))
  | _, i => (flat.get? i).map (fun v => (v, i + 1))

def pythonUnflattenTup (flat : List Sample) : List Space → Nat → Option (List Sample × Nat)
  | [], i => some ([], i)
  | c :: rest, i =>
      (pythonUnflattenAux flat c i).bind (fun p =>
        (pythonUnflattenTup flat rest p.2).map (fun q => (p.1 :: q.1, q.2)))

def pythonUnflattenDict (flat : List Sample) : List (String × Space) → Nat → Option (List (String × Sample) × Nat)
  | [], i => some ([], i)
  | (k, c) :: rest, i =>
      (pythonUnflattenAux flat c i).bind (fun p =>
        (pythonUnflattenDict flat rest p.2).map (fun q => ((k, p.1) :: q.1, q.2)))

end

/-- Source `python_unflatten(flat_sample, space)`. -/
def python_unflatten (flat : List Sample) (space : Space) : Option Sample :=
  (pythonUnflattenAux flat space 0).map Prod.fst

/-- The claimed round-trip pipeline:
`python_unflatten(split(concatenate(python_flatten(sample)), flatten_space(schema), batched=False).values(), schema)`. -/
def roundTrip (schema : Space) (sample : Sample) : Option Sample := do
  let cat ← concatenate (python_flatten sample)
  let leaves ← split cat (flatten_space schema)
  python_unflatten (leaves.map Prod.snd) schema

/-! ### Conformance of a sample to a schema -/

/-- Whether a rational is an exact integer (so integer casts are lossless). -/
def isIntQ (q : ℚ) : Bool := q.den = 1

mutual

/-- Membership `conforms s m`: the sample `m` is a member of the space `s` in the sense
of the data model — arrays match the leaf shape, dtype-integral leaves hold
integral values, `Discrete` samples are plain ints in `[0, n)`,
`MultiDiscrete` samples are integral vectors within their cardinalities, and
containers match structurally (dict keys in insertion order). -/
def conforms : Space → Sample → Bool
  | .box sh dt, .arr sh2 d =>
      sh2 = sh && d.length = listProd sh && (dt = Dtype.float64 || d.all isIntQ)
  | .discrete n, .intS v => 0 ≤ v && v < (n : ℤ)
  | .multidiscrete nv, .arr sh2 d =>
      sh2 = [nv.length] && d.length = nv.length &&
        (d.zip nv).all (fun p => isIntQ p.1 && 0 ≤ p.1 && p.1 < (p.2 : ℚ))
  | .tup cs, .tupS es => conformsTup cs es
  | .dict cs, .dictS es => conformsDict cs es
  | _, _ => false

def conformsTup : List Space → List Sample → Bool
  | [], [] => true
  | c :: cs, e :: es => conforms c e && conformsTup cs es
  | _, _ => false

def conformsDict : List (String × Space) → List (String × Sample) → Bool
  | [], [] => true
  | (k, c) :: cs, (k2, e) :: es => k2 = k && conforms c e && conformsDict cs es
  | _, _ => false

end

/-! ### Element-wise equality of samples

The round-trip invariant of the spec compares samples "element-wise", i.e. with
numpy broadcast equality at array leaves; the only shape divergence the
engine can produce is a 0-d array coming back as a 1-element 1-d array. -/

/-- numpy broadcast compatibility for the shapes that arise here. -/
def broadcastEq (sh1 sh2 : List Nat) : Bool :=
  sh1 = sh2 || (sh1 = [] && sh2 = [1]) || (sh1 = [1] && sh2 = [])

mutual

/-- Element-wise equality of two samples. -/
def eqElem : Sample → Sample → Bool
  | .arr sh1 d1, .arr sh2 d2 => broadcastEq sh1 sh2 && d1 = d2
  | .intS a, .intS b => a = b
  | .tupS a, .tupS b => eqElemTup a b
  | .dictS a, .dictS b => eqElemDict a b
  | _, _ => false

def eqElemTup : List Sample → List Sample → Bool
  | [], [] => true
  | a :: as2, b :: bs => eqElem a b && eqElemTup as2 bs
  | _, _ => false

def eqElemDict : List (String × Sample) → List (String × Sample) → Bool
  | [], [] => true
  | (k1, a) :: as2, (k2, b) :: bs => k1 = k2 && eqElem a b && eqElemDict as2 bs
  | _, _ => false

end

/-! ### Proof-side derived views of a schema/sample pair -/

mutual

/-- The leaf samples of a nested sample, in traversal order, kept in their
original form (python ints are not wrapped). -/
def origLeaves : Sample → List Sample
  | .tupS es => origLeavesTup es
  | .dictS es => origLeavesDict es
  | .arr sh d => [.arr sh d]
  | .intS v => [.intS v]

def origLeavesTup : List Sample → List Sample
  | [] => []
  | e :: rest => origLeaves e ++ origLeavesTup rest

def origLeavesDict : List (String × Sample) → List Sample
  | [] => []
  | (_, e) :: rest => origLeaves e ++ origLeavesDict rest

end

/-- The `np.array([v])` wrapping applied by `python_flatten` to non-array leaves. -/
def wrapArr : Sample → Sample
  | .intS v => .arr [1] [(v : ℚ)]
  | s => s

mutual

/-- The raveled concatenation of all leaf data of a sample, in traversal
order. -/
def ravAll : Sample → List ℚ
  | .tupS es => ravAllTup es
  | .dictS es => ravAllDict es
  | .arr _ d => d
  | .intS v => [(v : ℚ)]

def ravAllTup : List Sample → List ℚ
  | [] => []
  | e :: rest => ravAll e ++ ravAllTup rest

def ravAllDict : List (String × Sample) → List ℚ
  | [] => []
  | (_, e) :: rest => ravAll e ++ ravAllDict rest

end

/-- The leaf value `split` reconstructs for a leaf space from its raveled
data segment. -/
def recon (c : Space) (seg : List ℚ) : Sample :=
  match c with
  | .discrete _ => .intS (qtruncZ (seg.headD 0))
  | .box sh dt => .arr (if sh = [] then [1] else sh) (seg.map (castQ dt))
  | .multidiscrete nv => .arr [nv.length] (seg.map (castQ .int64))
  | _ => .arr [] []

mutual

/-- The leaf spaces of a schema in traversal order (the values of the flat
leaf-map, without the generated keys). -/
def leafSpaces : Space → List Space
  | .tup cs => leafSpacesTup cs
  | .dict cs => leafSpacesDict cs
  | c => [c]

def leafSpacesTup : List Space → List Space
  | [] => []
  | c :: rest => leafSpaces c ++ leafSpacesTup rest

def leafSpacesDict : List (String × Space) → List Space
  | [] => []
  | (_, c) :: rest => leafSpaces c ++ leafSpacesDict rest

end

/-- The ordered leaf values `split` reconstructs for a conforming sample:
one `recon` per leaf, fed with the raveled data of that leaf. -/
def reconVals (s : Space) (m : Sample) : List Sample :=
  List.zipWith (fun c lm => recon c (ravAll lm)) (leafSpaces s) (origLeaves m)

/-- Total element count of a flat leaf-map. -/
def sumSz (fl : List (String × Space)) : Nat := (fl.map (fun p => szOf p.2)).sum

/-- The value `split` computes in unbatched mode, expressed directly: each
leaf gets `recon` of its `szOf`-long segment at the running offset. -/
def splitModel : List (String × Space) → List ℚ → Nat → List (String × Sample)
  | [], _, _ => []
  | (k, c) :: rest, d, ptr =>
      (k, recon c ((d.drop ptr).take (szOf c))) :: splitModel rest d (ptr + szOf c)

/-- The flat leaf-maps on which the claimed round trip goes through: at
least one leaf, and a lone leaf is not a 0-d `Box` (whose raw short-circuit
value cannot be sliced). -/
def goodFlat : List (String × Space) → Bool
  | [] => false
  | [(_, .box [] _)] => false
  | _ => true

/-! ### `convert_to_multidiscrete` (source lines 505-515) -/

/-- The loop of `convert_to_multidiscrete`: `Discrete` appends its
cardinality, `MultiDiscrete` extends with its cardinality vector, anything
else raises the invalid-action-space `ValueError`. -/
def convertLens : List (String × Space) → Except String (List Nat)
  | [] => .ok []
  | (_, .discrete n) :: rest => (convertLens rest).map (fun l => n :: l)
  | (_, .multidiscrete nv) :: rest => (convertLens rest).map (fun l => nv ++ l)
  | (_, _) :: _ => .error "Invalid action space"

/-- Source `convert_to_multidiscrete(flat_space)`, returning `MultiDiscrete(lens)`. -/
def convert_to_multidiscrete (flatSpace : List (String × Space)) : Except String Space :=
  (convertLens flatSpace).map Space.multidiscrete

/-- Whether a leaf is of a discrete kind (mergeable by
`convert_to_multidiscrete`). -/
def isDiscreteKind : Space → Bool
  | .discrete _ => true
  | .multidiscrete _ => true
  | _ => false

/-- The cardinalities contributed by one mergeable leaf. -/
def cardsOf : Space → List Nat
  | .discrete n => [n]
  | .multidiscrete nv => nv
  | _ => []

/-! ### Padding (source lines 314-323) -/

/-- Source `pad_agent_data(data, agents, pad_value)`: one entry per agent in the
fixed order, the value of the agent when present, the pad value otherwise. -/
def pad_agent_data {α : Type} (data : List (String × α)) (agents : List String)
    (padValue : α) : List (String × α) :=
  agents.map (fun a => (a, ((data.lookup a).getD padValue)))

/-- Per-agent info dictionaries (string-keyed records; the pad is `{}`). -/
def Info : Type := List (String × ℚ)

/-- Source `pad_to_const_num_agents(agents, obs, rewards, dones, infos, pad_obs)`. -/
def pad_to_const_num_agents (agents : List String) (obs : List (String × Sample))
    (rewards : List (String × ℚ)) (dones : List (String × Bool))
    (infos : List (String × Info)) (padObs : Sample) :
    List (String × Sample) × List (String × ℚ) × List (String × Bool) × List (String × Info) :=
  (pad_agent_data obs agents padObs,
   pad_agent_data rewards agents 0,
   pad_agent_data dones agents false,
   pad_agent_data infos agents [])

/-- The canonical pad observation `pad_obs = flat_observation * 0` derived in
`make_flat_and_box_obs_space` (source line 353); the flat observation there is
always an array. -/
def pad_observation : Sample → Sample
  | .arr sh d => .arr sh (d.map (fun q => q * 0))
  | s => s

/-! ### Teams (source lines 384-414) -/

/-- Set equality of the underlying key sets (python `set(a) != set(b)`). -/
def sameSet (l1 l2 : List String) : Bool :=
  l1.all (fun x => l2.contains x) && l2.all (fun x => l1.contains x)

/-- Source `check_teams(env, teams)` (lines 384-386): raises unless the union
of the team member lists equals the possible-agent set.  Defined in the
source but never invoked by it. -/
def check_teams (possibleAgents : List String) (teams : List (String × List String)) :
    Except String Unit :=
  if sameSet possibleAgents (teams.flatMap Prod.snd) then .ok () else
    .error "Invalid teams for possible_agents"

/-- Source `group_into_teams(teams, agent_data)` for a single data mapping: the
debug-mode check that the input agent set equals the agent set of the partition,
then one sub-mapping per team holding the members present in the input. -/
def group_into_teams (teams : List (String × List String))
    (agentData : List (String × Sample)) :
    Except String (List (String × List (String × Sample))) :=
  if !sameSet (agentData.map Prod.fst) (teams.flatMap Prod.snd) then
    .error "Invalid teams for agents"
  else
    .ok (teams.map (fun tp =>
      (tp.1, tp.2.filterMap (fun a => (agentData.lookup a).map (fun v => (a, v))))))

/-- Source `ungroup_from_teams(team_data)`: flatten team -> agent -> data back into
one agent -> data mapping. -/
def ungroup_from_teams (teamData : List (String × List (String × Sample))) :
    List (String × Sample) :=
  teamData.flatMap Prod.snd

/-! ### Adapter guards (source lines 114-119, 151-165, 183-222, 240-249) -/

/-- The exceptions raised by the adapters. -/
inductive Exc where
  | apiUsage (msg : String)
  | invalidAgent (agent : String) (valid : List String)
deriving DecidableEq, Repr

/-- The state of `GymPufferEnv` relevant to the step guards: `initialized`
(set by `reset`) and `done` (true at construction and after a terminal step). -/
structure GymState where
  initialized : Bool
  done : Bool
deriving DecidableEq, Repr

/-- Source `GymPufferEnv.step` (lines 114-119): the usage guards, with the
remainder of the step body — beginning with the postprocessor call and the
underlying `env.step` — abstracted as `rest`. -/
def gymStep {α : Type} (s : GymState) (rest : Except Exc α) : Except Exc α :=
  if !s.initialized then .error (.apiUsage "step() called before reset()")
  else if s.done then .error (.apiUsage "step() called after environment is done")
  else rest

/-- The state of `PettingZooPufferEnv` relevant to the guards:
`possible_agents` (fixed roster), the live `agents` of the underlying env
(shrinks as agents finish; `done` is `len(agents) == 0`), and `initialized`. -/
structure PZState where
  possibleAgents : List String
  agents : List String
  initialized : Bool
deriving DecidableEq, Repr

/-- Source `PettingZooPufferEnv.step` (lines 240-249): the usage guards and
the per-call agent validation (`__debug__` on), with the remainder of the
step body abstracted as `rest`.  Note the unknown-agent error is raised with
`self.agents`, the live agent list. -/
def pzStep {α β : Type} (s : PZState) (actions : List (String × β))
    (rest : Except Exc α) : Except Exc α :=
  if !s.initialized then .error (.apiUsage "step() called before reset()")
  else if s.agents.isEmpty then .error (.apiUsage "step() called after environment is done")
  else
    match actions.find? (fun p => !(s.possibleAgents.contains p.1)) with
    | some p => .error (.invalidAgent p.1 s.agents)
    | none => rest

/-- Source `PettingZooPufferEnv.observation_space(agent)` /
`action_space(agent)` (source lines 183-186 and 205-208): the membership
guard, raising `InvalidAgentError(agent, self.possible_agents)`, with the
space construction abstracted as `rest`. -/
def pzSpaceQuery {α : Type} (s : PZState) (agent : String) (rest : Except Exc α) :
    Except Exc α :=
  if !(s.possibleAgents.contains agent) then
    .error (.invalidAgent agent s.possibleAgents)
  else rest

/-- The configuration recorded by `PettingZooPufferEnv.__init__`. -/
structure PZInit where
  possibleAgents : List String
  teams : Option (List (String × List String))
  initialized : Bool
deriving DecidableEq, Repr

/-- Source `PettingZooPufferEnv.__init__` (lines 152-165): records the team
configuration and derives `possible_agents` (the team ids when teams are
given), then caches the spaces for `possible_agents[0]` (an `IndexError`
when the roster is empty; the space synthesis itself is abstracted).  The
constructor performs no team-partition validation: `check_teams` is never
called. -/
def pzInit (envPossibleAgents : List String)
    (teams : Option (List (String × List String))) : Except String PZInit :=
  let pa := match teams with
    | none => envPossibleAgents
    | some t => t.map Prod.fst
  if pa.isEmpty then .error "IndexError: possible_agents is empty"
  else .ok { possibleAgents := pa, teams := teams, initialized := false }

/-! ## Supporting lemmas -/

/-- A raveled leaf value, as a total function on the leaf values that occur
in flat maps (arrays and python ints). -/
def ravelD : Sample → List ℚ
  | .arr _ d => d
  | .intS v => [(v : ℚ)]
  | _ => []

/-- Whether a flat-map value is a numeric leaf value. -/
def isLeafVal : Sample → Bool
  | .arr _ _ => true
  | .intS _ => true
  | _ => false

/-- Custom induction principle for `Space` (nested inductive): the container
cases get member-wise induction hypotheses. -/
theorem spaceInduction (P : Space → Prop)
    (hb : ∀ sh dt, P (.box sh dt))
    (hd : ∀ n, P (.discrete n))
    (hm : ∀ nv, P (.multidiscrete nv))
    (ht : ∀ cs, (∀ c ∈ cs, P c) → P (.tup cs))
    (hdct : ∀ cs, (∀ kc ∈ cs, P kc.2) → P (.dict cs)) :
    ∀ s, P s
  | .box sh dt => hb sh dt
  | .discrete n => hd n
  | .multidiscrete nv => hm nv
  | .tup cs => ht cs (fun c hc => spaceInduction P hb hd hm ht hdct c)
  | .dict cs => hdct cs (fun kc hkc => spaceInduction P hb hd hm ht hdct kc.2)
termination_by s => sizeOf s
decreasing_by
  · have h1 : sizeOf c < sizeOf cs := List.sizeOf_lt_of_mem hc
    simp only [Space.tup.sizeOf_spec]
    omega
  · have h1 : sizeOf kc < sizeOf cs := List.sizeOf_lt_of_mem hkc
    have h2 : sizeOf kc.2 < sizeOf kc := by
      obtain ⟨a, b⟩ := kc
      simp only [Prod.mk.sizeOf_spec]
      omega
    simp only [Space.dict.sizeOf_spec]
    omega

/-- Custom induction principle for `Sample`. -/
theorem sampleInduction (P : Sample → Prop)
    (ha : ∀ sh d, P (.arr sh d))
    (hi : ∀ v, P (.intS v))
    (ht : ∀ es, (∀ e ∈ es, P e) → P (.tupS es))
    (hdct : ∀ es, (∀ ke ∈ es, P ke.2) → P (.dictS es)) :
    ∀ m, P m
  | .arr sh d => ha sh d
  | .intS v => hi v
  | .tupS es => ht es (fun e he => sampleInduction P ha hi ht hdct e)
  | .dictS es => hdct es (fun ke hke => sampleInduction P ha hi ht hdct ke.2)
termination_by m => sizeOf m
decreasing_by
  · have h1 : sizeOf e < sizeOf es := List.sizeOf_lt_of_mem he
    simp only [Sample.tupS.sizeOf_spec]
    omega
  · have h1 : sizeOf ke < sizeOf es := List.sizeOf_lt_of_mem hke
    have h2 : sizeOf ke.2 < sizeOf ke := by
      obtain ⟨a, b⟩ := ke
      simp only [Prod.mk.sizeOf_spec]
      omega
    simp only [Sample.dictS.sizeOf_spec]
    omega

theorem ravelOrWrap_eq_ravelD {x : Sample} (h : isLeafVal x = true) :
    ravelOrWrap x = some (ravelD x) := by
  cases x <;> simp_all [ravelOrWrap, ravelD, isLeafVal]

theorem mapM_ravelOrWrap {l : List Sample} (h : ∀ x ∈ l, isLeafVal x = true) :
    l.mapM ravelOrWrap = some (l.map ravelD) := by
  induction l with
  | nil => rfl
  | cons x rest ih =>
      rw [List.mapM_cons, ravelOrWrap_eq_ravelD (h x (by simp))]
      rw [ih (fun y hy => h y (by simp [hy]))]
      rfl

/-- Applying `concatenate` to a multi-leaf map: the raveled leaf data concatenated
into one 1-D array. -/
theorem concatenate_multi {l : List Sample} (h2 : 2 ≤ l.length)
    (h : ∀ x ∈ l, isLeafVal x = true) :
    concatenate l = some (.arr [(l.flatMap ravelD).length] (l.flatMap ravelD)) := by
  match l, h2 with
  | x :: y :: rest, _ =>
    show (((x :: y :: rest).mapM ravelOrWrap).map
        (fun ds => Sample.arr [ds.flatten.length] ds.flatten)) = _
    rw [mapM_ravelOrWrap h]
    simp [List.flatMap]

/-! ### C6: single-leaf short-circuit of `concatenate` -/

/-- C6: given a single-leaf flat map, `concatenate` returns the raw value of that
leaf
unchanged (whatever its shape); with two or more leaves it returns the
1-D concatenation of the raveled leaf values (python ints contributing
one-element vectors), in map order. -/
theorem concatenate_single_leaf_shortcircuit (l : List Sample) :
    (∀ x, l = [x] → concatenate l = some x) ∧
    (2 ≤ l.length → (∀ x ∈ l, isLeafVal x = true) →
      concatenate l = some (.arr [(l.flatMap ravelD).length] (l.flatMap ravelD))) := by
  constructor
  · rintro x rfl
    rfl
  · exact fun h2 h => concatenate_multi h2 h

/-- Witness for C6: a single multi-dimensional leaf comes back raw (not
raveled to 1-D), and a two-leaf map concatenates `[1, 2]` and the int `7`
into the vector `[1, 2, 7]`. -/
theorem concatenate_single_leaf_shortcircuit_witness :
    concatenate [Sample.arr [2, 2] [1, 2, 3, 4]] = some (Sample.arr [2, 2] [1, 2, 3, 4]) ∧
    concatenate [Sample.arr [2] [1, 2], Sample.intS 7] = some (Sample.arr [3] [1, 2, 7]) := by
  refine ⟨(concatenate_single_leaf_shortcircuit [Sample.arr [2, 2] [1, 2, 3, 4]]).1 _ rfl, ?_⟩
  have h := (concatenate_single_leaf_shortcircuit [Sample.arr [2] [1, 2], Sample.intS 7]).2
    (by decide) (by decide)
  simpa using h

/-! ### C3: discrete merge -/

theorem convertLens_all_discrete {fl : List (String × Space)}
    (h : ∀ p ∈ fl, isDiscreteKind p.2 = true) :
    convertLens fl = .ok (fl.flatMap (fun p => cardsOf p.2)) := by
  induction fl with
  | nil => rfl
  | cons p rest ih =>
      obtain ⟨k, c⟩ := p
      have hc := h (k, c) (by simp)
      have hrest := ih (fun q hq => h q (by simp [hq]))
      cases c <;> simp_all [convertLens, isDiscreteKind, cardsOf, Except.map]

theorem convertLens_error_iff (fl : List (String × Space)) :
    (∃ p ∈ fl, isDiscreteKind p.2 = false) ↔ ∃ msg, convertLens fl = .error msg := by
  induction fl with
  | nil => simp [convertLens]
  | cons p rest ih =>
      obtain ⟨k, c⟩ := p
      cases c
      case discrete n =>
        simp only [convertLens]
        constructor
        · rintro ⟨q, hq, hbad⟩
          rcases List.mem_cons.mp hq with rfl | hq2
          · simp [isDiscreteKind] at hbad
          · obtain ⟨msg, hmsg⟩ := ih.mp ⟨q, hq2, hbad⟩
            exact ⟨msg, by simp [hmsg, Except.map]⟩
        · rintro ⟨msg, hmsg⟩
          cases hlens : convertLens rest with
          | ok l => rw [hlens] at hmsg; simp [Except.map] at hmsg
          | error e =>
              obtain ⟨q, hq, hbad⟩ := ih.mpr ⟨e, hlens⟩
              exact ⟨q, by simp [hq], hbad⟩
      case multidiscrete nv =>
        simp only [convertLens]
        constructor
        · rintro ⟨q, hq, hbad⟩
          rcases List.mem_cons.mp hq with rfl | hq2
          · simp [isDiscreteKind] at hbad
          · obtain ⟨msg, hmsg⟩ := ih.mp ⟨q, hq2, hbad⟩
            exact ⟨msg, by simp [hmsg, Except.map]⟩
        · rintro ⟨msg, hmsg⟩
          cases hlens : convertLens rest with
          | ok l => rw [hlens] at hmsg; simp [Except.map] at hmsg
          | error e =>
              obtain ⟨q, hq, hbad⟩ := ih.mpr ⟨e, hlens⟩
              exact ⟨q, by simp [hq], hbad⟩
      all_goals
        constructor
        · intro _
          exact ⟨"Invalid action space", rfl⟩
        · intro _
          refine ⟨_, List.mem_cons_self _ _, rfl⟩

/-- C3: on a flat leaf-map whose leaves are all `Discrete`/`MultiDiscrete`,
`convert_to_multidiscrete` returns the single merged `MultiDiscrete` whose
cardinality vector concatenates the cardinalities of each leaf in traversal
order; it raises the invalid-action-space error exactly when some leaf in
the map is of any other kind. -/
theorem convert_to_multidiscrete_correct (fl : List (String × Space)) :
    ((∀ p ∈ fl, isDiscreteKind p.2 = true) →
      convert_to_multidiscrete fl =
        .ok (.multidiscrete (fl.flatMap (fun p => cardsOf p.2)))) ∧
    ((∃ p ∈ fl, isDiscreteKind p.2 = false) ↔
      ∃ msg, convert_to_multidiscrete fl = .error msg) := by
  constructor
  · intro h
    rw [convert_to_multidiscrete, convertLens_all_discrete h]
    rfl
  · rw [convert_to_multidiscrete]
    constructor
    · intro hex
      obtain ⟨msg, hmsg⟩ := (convertLens_error_iff fl).mp hex
      exact ⟨msg, by simp [hmsg, Except.map]⟩
    · rintro ⟨msg, hmsg⟩
      refine (convertLens_error_iff fl).mpr ?_
      cases hlens : convertLens fl with
      | ok l => rw [hlens] at hmsg; simp [Except.map] at hmsg
      | error e => exact ⟨e, rfl⟩

/-- Witness for C3: `{a: Discrete(5), b: Discrete(3)}` merges to
cardinalities `[5, 3]`, and adding a continuous `Box` leaf raises. -/
theorem convert_to_multidiscrete_correct_witness :
    convert_to_multidiscrete [("Da.V", .discrete 5), ("Db.V", .discrete 3)] =
      .ok (.multidiscrete [5, 3]) ∧
    (∃ msg, convert_to_multidiscrete
      [("Da.V", .discrete 5), ("Db.V", .box [1] .float64)] = .error msg) := by
  constructor
  · have h := (convert_to_multidiscrete_correct
      [("Da.V", .discrete 5), ("Db.V", .discrete 3)]).1 (by decide)
    simpa using h
  · exact (convert_to_multidiscrete_correct
      [("Da.V", .discrete 5), ("Db.V", .box [1] .float64)]).2.mp
      ⟨("Db.V", .box [1] .float64), by simp, rfl⟩

/-! ### C4: padding to the constant agent population -/

theorem lookup_map_self {α : Type} (agents : List String) (f : String → α) (a : String) :
    (agents.map (fun x => (x, f x))).lookup a =
      if a ∈ agents then some (f a) else none := by
  induction agents with
  | nil => rfl
  | cons x rest ih =>
      simp only [List.map_cons, List.lookup]
      by_cases hax : a = x
      · subst hax
        simp
      · have hbeq : (a == x) = false := beq_eq_false_iff_ne.mpr hax
        simp [hbeq, ih, List.mem_cons, hax]

theorem pad_agent_data_keys {α : Type} (data : List (String × α)) (agents : List String)
    (padValue : α) : (pad_agent_data data agents padValue).map Prod.fst = agents := by
  induction agents with
  | nil => rfl
  | cons x rest ih => simpa [pad_agent_data] using ih

theorem pad_agent_data_lookup {α : Type} (data : List (String × α)) (agents : List String)
    (padValue : α) {a : String} (ha : a ∈ agents) :
    (pad_agent_data data agents padValue).lookup a =
      some ((data.lookup a).getD padValue) := by
  rw [pad_agent_data, lookup_map_self, if_pos ha]

/-- C4: `pad_to_const_num_agents` returns mappings whose key sequence is
exactly the possible-agent roster; an agent missing from an input mapping
receives the canonical zero-valued pad observation / reward `0` /
done `false` / empty info record, and an agent present in an input mapping
keeps its entry unchanged. -/
theorem pad_to_const_num_agents_correct (agents : List String)
    (obs : List (String × Sample)) (rewards : List (String × ℚ))
    (dones : List (String × Bool)) (infos : List (String × Info)) (flatObs : Sample) :
    ((pad_to_const_num_agents agents obs rewards dones infos (pad_observation flatObs)).1.map
        Prod.fst = agents ∧
      (pad_to_const_num_agents agents obs rewards dones infos (pad_observation flatObs)).2.1.map
        Prod.fst = agents ∧
      (pad_to_const_num_agents agents obs rewards dones infos (pad_observation flatObs)).2.2.1.map
        Prod.fst = agents ∧
      (pad_to_const_num_agents agents obs rewards dones infos (pad_observation flatObs)).2.2.2.map
        Prod.fst = agents) ∧
    (∀ a ∈ agents,
      (obs.lookup a = none →
        (pad_to_const_num_agents agents obs rewards dones infos
          (pad_observation flatObs)).1.lookup a = some (pad_observation flatObs)) ∧
      (rewards.lookup a = none →
        (pad_to_const_num_agents agents obs rewards dones infos
          (pad_observation flatObs)).2.1.lookup a = some 0) ∧
      (dones.lookup a = none →
        (pad_to_const_num_agents agents obs rewards dones infos
          (pad_observation flatObs)).2.2.1.lookup a = some false) ∧
      (infos.lookup a = none →
        (pad_to_const_num_agents agents obs rewards dones infos
          (pad_observation flatObs)).2.2.2.lookup a = some ([] : Info))) ∧
    (∀ a ∈ agents,
      (∀ v, obs.lookup a = some v →
        (pad_to_const_num_agents agents obs rewards dones infos
          (pad_observation flatObs)).1.lookup a = some v) ∧
      (∀ v, rewards.lookup a = some v →
        (pad_to_const_num_agents agents obs rewards dones infos
          (pad_observation flatObs)).2.1.lookup a = some v) ∧
      (∀ v, dones.lookup a = some v →
        (pad_to_const_num_agents agents obs rewards dones infos
          (pad_observation flatObs)).2.2.1.lookup a = some v) ∧
      (∀ v, infos.lookup a = some v →
        (pad_to_const_num_agents agents obs rewards dones infos
          (pad_observation flatObs)).2.2.2.lookup a = some v)) := by
  refine ⟨⟨?_, ?_, ?_, ?_⟩, ?_, ?_⟩
  · exact pad_agent_data_keys _ _ _
  · exact pad_agent_data_keys _ _ _
  · exact pad_agent_data_keys _ _ _
  · exact pad_agent_data_keys _ _ _
  · intro a ha
    refine ⟨?_, ?_, ?_, ?_⟩ <;> intro hnone <;>
      simp [pad_to_const_num_agents, pad_agent_data_lookup _ _ _ ha, hnone]
  · intro a ha
    refine ⟨?_, ?_, ?_, ?_⟩ <;> intro v hv <;>
      simp [pad_to_const_num_agents, pad_agent_data_lookup _ _ _ ha, hv]

/-- Witness for C4: possible agents `{p1, p2, p3}` with input covering only
`{p1, p3}`: `p2` is padded, `p1`/`p3` unchanged. -/
theorem pad_to_const_num_agents_correct_witness :
    ("p2" ∈ ["p1", "p2", "p3"]) ∧
    (pad_to_const_num_agents ["p1", "p2", "p3"]
        [("p1", Sample.arr [2] [1, 2]), ("p3", Sample.arr [2] [3, 4])]
        [("p1", 5), ("p3", 6)] [("p1", false), ("p3", true)]
        [("p1", []), ("p3", [])]
        (pad_observation (Sample.arr [2] [1, 2]))).1.lookup "p2" =
      some (pad_observation (Sample.arr [2] [1, 2])) ∧
    (pad_to_const_num_agents ["p1", "p2", "p3"]
        [("p1", Sample.arr [2] [1, 2]), ("p3", Sample.arr [2] [3, 4])]
        [("p1", 5), ("p3", 6)] [("p1", false), ("p3", true)]
        [("p1", []), ("p3", [])]
        (pad_observation (Sample.arr [2] [1, 2]))).1.lookup "p1" =
      some (Sample.arr [2] [1, 2]) := by
  have hmem : "p2" ∈ ["p1", "p2", "p3"] := by decide
  have hpad := ((pad_to_const_num_agents_correct ["p1", "p2", "p3"]
    [("p1", Sample.arr [2] [1, 2]), ("p3", Sample.arr [2] [3, 4])]
    [("p1", 5), ("p3", 6)] [("p1", false), ("p3", true)]
    [("p1", []), ("p3", [])] (Sample.arr [2] [1, 2])).2.1 "p2" hmem).1 (by rfl)
  have hkeep := ((pad_to_const_num_agents_correct ["p1", "p2", "p3"]
    [("p1", Sample.arr [2] [1, 2]), ("p3", Sample.arr [2] [3, 4])]
    [("p1", 5), ("p3", 6)] [("p1", false), ("p3", true)]
    [("p1", []), ("p3", [])] (Sample.arr [2] [1, 2])).2.2 "p1" (by decide)).1
    (Sample.arr [2] [1, 2]) (by rfl)
  exact ⟨hmem, hpad, hkeep⟩

/-! ### C5: team partition validation is absent from construction -/

/-- C5 (code bug): constructing the multi-agent adapter with a team
partition that does not cover the possible-agent set succeeds — the
constructor never invokes `check_teams` — while `check_teams` itself, given
the same configuration, does raise the fatal invalid-teams error. -/
theorem pz_construction_skips_team_validation :
    pzInit ["p1", "p2", "p3"] (some [("t1", ["p1", "p2"])]) =
      .ok { possibleAgents := ["t1"], teams := some [("t1", ["p1", "p2"])],
            initialized := false } ∧
    (∃ msg, check_teams ["p1", "p2", "p3"] [("t1", ["p1", "p2"])] = .error msg) := by
  exact ⟨rfl, ⟨"Invalid teams for possible_agents", rfl⟩⟩

/-! ### C8: usage-sequence errors in both adapters -/

/-- C8: in both adapters, `step` before the first `reset` or after episode
completion raises a fatal API-usage error, and the result does not depend on
the rest of the step body (in particular the step of the underlying
environment is never consulted). -/
theorem step_guards_reject (sG : GymState) (sP : PZState)
    (actions : List (String × ℤ))
    (hG : sG.initialized = false ∨ sG.done = true)
    (hP : sP.initialized = false ∨ sP.agents = []) :
    (∃ msg, ∀ rest : Except Exc Sample, gymStep sG rest = .error (.apiUsage msg)) ∧
    (∃ msg, ∀ rest : Except Exc Sample, pzStep sP actions rest = .error (.apiUsage msg)) := by
  constructor
  · by_cases hinit : sG.initialized
    · have hdone : sG.done = true := by
        rcases hG with h | h
        · rw [hinit] at h; exact absurd h (by simp)
        · exact h
      exact ⟨"step() called after environment is done", fun rest => by
        simp [gymStep, hinit, hdone]⟩
    · exact ⟨"step() called before reset()", fun rest => by
        simp [gymStep, hinit]⟩
  · by_cases hinit : sP.initialized
    · have hdone : sP.agents = [] := by
        rcases hP with h | h
        · rw [hinit] at h; exact absurd h (by simp)
        · exact h
      exact ⟨"step() called after environment is done", fun rest => by
        simp [pzStep, hinit, hdone]⟩
    · exact ⟨"step() called before reset()", fun rest => by
        simp [pzStep, hinit]⟩

/-- Witness for C8: a never-reset single-agent adapter and a completed
multi-agent adapter both reject `step`. -/
theorem step_guards_reject_witness :
    ((GymState.mk false true).initialized = false ∨ (GymState.mk false true).done = true) ∧
    ((PZState.mk ["p1"] [] true).initialized = false ∨ (PZState.mk ["p1"] [] true).agents = []) ∧
    ((∃ msg, ∀ rest : Except Exc Sample,
        gymStep (GymState.mk false true) rest = .error (.apiUsage msg)) ∧
      (∃ msg, ∀ rest : Except Exc Sample,
        pzStep (PZState.mk ["p1"] [] true) ([] : List (String × ℤ)) rest =
          .error (.apiUsage msg))) :=
  ⟨Or.inl rfl, Or.inr rfl,
    step_guards_reject (GymState.mk false true) (PZState.mk ["p1"] [] true) []
      (Or.inl rfl) (Or.inr rfl)⟩

/-! ### C9: unknown-agent errors -/

/-- C9 counterexample: with possible agents `[p1, p2]` but only `p1` still
active, submitting an action for `"ghost"` raises the unknown-agent error
naming the *live* agent list `[p1]`, not the valid (possible) agent set
`[p1, p2]` that the space queries name — so the step error does not name the
valid agent set and is not the same error the space query raises. -/
theorem pz_unknown_agent_counterexample :
    pzStep (PZState.mk ["p1", "p2"] ["p1"] true) [("ghost", (0 : ℤ))]
        (Except.ok (Sample.intS 0)) = .error (.invalidAgent "ghost" ["p1"]) ∧
    pzSpaceQuery (PZState.mk ["p1", "p2"] ["p1"] true) "ghost"
        (Except.ok (Sample.intS 0)) = .error (.invalidAgent "ghost" ["p1", "p2"]) ∧
    Exc.invalidAgent "ghost" ["p1"] ≠ Exc.invalidAgent "ghost" ["p1", "p2"] := by
  exact ⟨rfl, rfl, by decide⟩

/-- C9 (amended): submitting an actions mapping whose first offending entry
names an agent outside the possible-agent set raises the unknown-agent error
naming that id and the *currently active* agent list (which equals the
possible set only while no agent has finished); querying
`observation_space`/`action_space` for an id outside the possible-agent set
raises the unknown-agent error naming that id and the possible-agent set.
In both cases membership is tested against the possible-agent set. -/
theorem pz_unknown_agent_errors (s : PZState) (actions : List (String × ℤ))
    (rest rest2 : Except Exc Sample) (g : String) (v : ℤ) (agent : String)
    (hinit : s.initialized = true) (hne : s.agents ≠ [])
    (hfind : actions.find? (fun p => !(s.possibleAgents.contains p.1)) = some (g, v))
    (hagent : s.possibleAgents.contains agent = false) :
    pzStep s actions rest = .error (.invalidAgent g s.agents) ∧
    pzSpaceQuery s agent rest2 = .error (.invalidAgent agent s.possibleAgents) := by
  constructor
  · obtain ⟨pa, ag, init⟩ := s
    dsimp only at hinit hne hfind ⊢
    subst hinit
    cases ag with
    | nil => exact absurd rfl hne
    | cons a ag2 =>
        simp only [pzStep]
        rw [hfind]
        rfl
  · unfold pzSpaceQuery
    rw [hagent]
    rfl

/-! ### C7: team grouping inverse -/

theorem lookup_append_some {α : Type} {l1 : List (String × α)} (l2 : List (String × α))
    {k : String} {v : α} (h : l1.lookup k = some v) : (l1 ++ l2).lookup k = some v := by
  induction l1 with
  | nil => simp [List.lookup] at h
  | cons p rest ih =>
      obtain ⟨a, b⟩ := p
      simp only [List.lookup, List.cons_append] at h ⊢
      cases hka : k == a with
      | true => rw [hka] at h; simpa using h
      | false => rw [hka] at h; exact ih h

theorem lookup_append_none {α : Type} {l1 : List (String × α)} (l2 : List (String × α))
    {k : String} (h : l1.lookup k = none) : (l1 ++ l2).lookup k = l2.lookup k := by
  induction l1 with
  | nil => rfl
  | cons p rest ih =>
      obtain ⟨a, b⟩ := p
      simp only [List.lookup, List.cons_append] at h ⊢
      cases hka : k == a with
      | true => rw [hka] at h; simp at h
      | false => rw [hka] at h; exact ih h

theorem lookup_eq_none_of_not_mem {α : Type} {l : List (String × α)} {k : String}
    (h : k ∉ l.map Prod.fst) : l.lookup k = none := by
  induction l with
  | nil => rfl
  | cons p rest ih =>
      obtain ⟨a, b⟩ := p
      simp only [List.map_cons, List.mem_cons, not_or] at h
      simp only [List.lookup, beq_eq_false_iff_ne.mpr h.1]
      exact ih h.2

/-- Looking up `k` in the per-team sub-mapping built from `members`:
present members resolve through the input data, everything else is absent. -/
theorem lookup_filterMap_data (data : List (String × Sample)) (members : List String)
    (k : String) :
    (members.filterMap (fun a => (data.lookup a).map (fun v => (a, v)))).lookup k =
      if k ∈ members then data.lookup k else none := by
  induction members with
  | nil => rfl
  | cons a rest ih =>
      by_cases hka : k = a
      · subst hka
        cases hda : List.lookup k data with
        | none => simp [List.filterMap_cons, hda, ih]
        | some v => simp [List.filterMap_cons, hda, List.lookup]
      · cases hda : List.lookup a data with
        | none => simp [List.filterMap_cons, hda, ih, List.mem_cons, hka]
        | some v =>
            simp only [List.filterMap_cons, hda, Option.map_some', List.lookup,
              beq_eq_false_iff_ne.mpr hka]
            rw [ih]
            simp [List.mem_cons, hka]

/-- Looking up `k` in the flattened grouped data: agents inside the partition
resolve through the input data, agents outside it are absent. -/
theorem lookup_grouped (teams : List (String × List String))
    (data : List (String × Sample)) (k : String) :
    ((teams.flatMap (fun tp =>
        tp.2.filterMap (fun a => (data.lookup a).map (fun v => (a, v))))).lookup k) =
      if k ∈ teams.flatMap Prod.snd then data.lookup k else none := by
  induction teams with
  | nil => rfl
  | cons tp rest ih =>
      obtain ⟨tid, members⟩ := tp
      simp only [List.flatMap_cons]
      by_cases hkm : k ∈ members
      · have hmem : k ∈ members ++ rest.flatMap Prod.snd := List.mem_append.mpr (Or.inl hkm)
        cases hdk : data.lookup k with
        | some v =>
            rw [lookup_append_some _ (by rw [lookup_filterMap_data, if_pos hkm]; exact hdk)]
            rw [if_pos hmem]
        | none =>
            rw [lookup_append_none _ (by rw [lookup_filterMap_data, if_pos hkm]; exact hdk)]
            rw [ih, if_pos hmem, hdk, ite_self]
      · rw [lookup_append_none _ (by rw [lookup_filterMap_data, if_neg hkm])]
        rw [ih]
        by_cases hkr : k ∈ rest.flatMap Prod.snd
        · rw [if_pos hkr, if_pos (List.mem_append.mpr (Or.inr hkr))]
        · have hnmem : k ∉ members ++ rest.flatMap Prod.snd := by
            intro hmem
            rcases List.mem_append.mp hmem with h | h
            · exact hkm h
            · exact hkr h
          rw [if_neg hkr, if_neg hnmem]

/-- C7: for a team partition whose agent set coincides with the key
set of the data, grouping into teams succeeds and ungrouping the grouped data restores
the original per-agent mapping. -/
theorem group_ungroup_inverse (teams : List (String × List String))
    (data : List (String × Sample))
    (hpart : sameSet (data.map Prod.fst) (teams.flatMap Prod.snd) = true) :
    ∃ g, group_into_teams teams data = .ok g ∧
      ∀ k, (ungroup_from_teams g).lookup k = data.lookup k := by
  refine ⟨teams.map (fun tp =>
    (tp.1, tp.2.filterMap (fun a => (data.lookup a).map (fun v => (a, v))))), ?_, ?_⟩
  · unfold group_into_teams
    rw [hpart]
    rfl
  · intro k
    rw [ungroup_from_teams]
    have hmapflat : ∀ ts : List (String × List String), (ts.map (fun tp =>
        (tp.1, tp.2.filterMap (fun a => (data.lookup a).map (fun v => (a, v)))))).flatMap
          Prod.snd =
        ts.flatMap (fun tp =>
          tp.2.filterMap (fun a => (data.lookup a).map (fun v => (a, v)))) := by
      intro ts
      induction ts with
      | nil => rfl
      | cons tp rest ih => simp only [List.map_cons, List.flatMap_cons, ih]
    rw [hmapflat, lookup_grouped]
    by_cases hk : k ∈ teams.flatMap Prod.snd
    · rw [if_pos hk]
    · rw [if_neg hk]
      have hsub : ∀ x ∈ data.map Prod.fst, x ∈ teams.flatMap Prod.snd := by
        simp only [sameSet, Bool.and_eq_true, List.all_eq_true] at hpart
        intro x hx
        simpa using hpart.1 x hx
      exact (lookup_eq_none_of_not_mem (fun hmem => hk (hsub k hmem))).symm

/-- Witness for C7: two teams over agents `{p1, p2}`, data for both agents. -/
theorem group_ungroup_inverse_witness :
    sameSet ([("p1", Sample.intS 1), ("p2", Sample.intS 2)].map Prod.fst)
      ([("t1", ["p1"]), ("t2", ["p2"])].flatMap Prod.snd) = true ∧
    (∃ g, group_into_teams [("t1", ["p1"]), ("t2", ["p2"])]
        [("p1", Sample.intS 1), ("p2", Sample.intS 2)] = .ok g ∧
      ∀ k, (ungroup_from_teams g).lookup k =
        [("p1", Sample.intS 1), ("p2", Sample.intS 2)].lookup k) :=
  ⟨by decide, group_ungroup_inverse [("t1", ["p1"]), ("t2", ["p2"])]
    [("p1", Sample.intS 1), ("p2", Sample.intS 2)] (by decide)⟩

/-! ### C2: deterministic key generation -/

theorem dictInsert_of_not_mem {m : List (String × Space)} {k : String}
    (h : ∀ p ∈ m, p.1 ≠ k) (v : Space) : dictInsert m k v = m ++ [(k, v)] := by
  have hany : m.any (fun p => p.1 = k) = false := by
    rw [List.any_eq_false]
    intro p hp
    simpa using h p hp
  unfold dictInsert
  rw [hany]
  rfl

theorem flattenSpaceTup_eq_append
    (cs : List Space)
    (hcs : ∀ c ∈ cs, ∀ key acc,
      (acc.map Prod.fst ++ (flatLeaves c key).map Prod.fst).Nodup →
      flattenSpaceAux c key acc = acc ++ flatLeaves c key) :
    ∀ i key acc,
      (acc.map Prod.fst ++ (flatLeavesTup cs i key).map Prod.fst).Nodup →
      flattenSpaceTup cs i key acc = acc ++ flatLeavesTup cs i key := by
  induction cs with
  | nil =>
      intro i key acc h
      simp [flattenSpaceTup, flatLeavesTup]
  | cons c rest ih =>
      intro i key acc h
      simp only [flattenSpaceTup, flatLeavesTup]
      simp only [flatLeavesTup] at h
      simp only [List.map_append] at h
      rw [← List.append_assoc] at h
      have h1 : (acc.map Prod.fst ++
          (flatLeaves c (key ++ "T" ++ toString i ++ ".")).map Prod.fst).Nodup :=
        h.sublist (List.sublist_append_left _ _)
      rw [hcs c (by simp) _ acc h1]
      rw [ih (fun c2 hc2 => hcs c2 (by simp [hc2])) (i + 1) key _ (by
        simpa [List.map_append] using h)]
      simp [List.append_assoc]

theorem flattenSpaceDict_eq_append
    (cs : List (String × Space))
    (hcs : ∀ kc ∈ cs, ∀ key acc,
      (acc.map Prod.fst ++ (flatLeaves kc.2 key).map Prod.fst).Nodup →
      flattenSpaceAux kc.2 key acc = acc ++ flatLeaves kc.2 key) :
    ∀ key acc,
      (acc.map Prod.fst ++ (flatLeavesDict cs key).map Prod.fst).Nodup →
      flattenSpaceDict cs key acc = acc ++ flatLeavesDict cs key := by
  induction cs with
  | nil =>
      intro key acc h
      simp [flattenSpaceDict, flatLeavesDict]
  | cons kc rest ih =>
      obtain ⟨k, c⟩ := kc
      intro key acc h
      simp only [flattenSpaceDict, flatLeavesDict]
      simp only [flatLeavesDict] at h
      simp only [List.map_append] at h
      rw [← List.append_assoc] at h
      have h1 : (acc.map Prod.fst ++
          (flatLeaves c (key ++ "D" ++ k ++ ".")).map Prod.fst).Nodup :=
        h.sublist (List.sublist_append_left _ _)
      rw [hcs (k, c) (by simp) _ acc h1]
      rw [ih (fun c2 hc2 => hcs c2 (by simp [hc2])) key _ (by
        simpa [List.map_append] using h)]
      simp [List.append_assoc]

/-- When the generated paths are pairwise distinct (no dict-key collision),
the accumulator-threading source function reduces to appending the leaf
list. -/
theorem flattenSpaceAux_eq_append (s : Space) : ∀ key acc,
    (acc.map Prod.fst ++ (flatLeaves s key).map Prod.fst).Nodup →
    flattenSpaceAux s key acc = acc ++ flatLeaves s key := by
  induction s using spaceInduction with
  | hb sh dt =>
      intro key acc h
      simp only [flattenSpaceAux, flatLeaves]
      refine dictInsert_of_not_mem (fun p hp => ?_) _
      simp only [flatLeaves] at h
      have hdisj := (List.nodup_append.mp h).2.2
      intro hpk
      exact hdisj (List.mem_map_of_mem Prod.fst hp) (by simp [hpk])
  | hd n =>
      intro key acc h
      simp only [flattenSpaceAux, flatLeaves]
      refine dictInsert_of_not_mem (fun p hp => ?_) _
      simp only [flatLeaves] at h
      have hdisj := (List.nodup_append.mp h).2.2
      intro hpk
      exact hdisj (List.mem_map_of_mem Prod.fst hp) (by simp [hpk])
  | hm nv =>
      intro key acc h
      simp only [flattenSpaceAux, flatLeaves]
      refine dictInsert_of_not_mem (fun p hp => ?_) _
      simp only [flatLeaves] at h
      have hdisj := (List.nodup_append.mp h).2.2
      intro hpk
      exact hdisj (List.mem_map_of_mem Prod.fst hp) (by simp [hpk])
  | ht cs ih =>
      intro key acc h
      simp only [flattenSpaceAux, flatLeaves]
      exact flattenSpaceTup_eq_append cs ih 0 key acc (by
        simp only [flatLeaves] at h; exact h)
  | hdct cs ih =>
      intro key acc h
      simp only [flattenSpaceAux, flatLeaves]
      exact flattenSpaceDict_eq_append cs ih key acc (by
        simp only [flatLeaves] at h; exact h)

/-- Collision-free schemas: `flatten_space` is exactly the leaf list. -/
theorem flatten_space_eq_flatLeaves {s : Space}
    (h : ((flatLeaves s "").map Prod.fst).Nodup) : flatten_space s = flatLeaves s "" := by
  have := flattenSpaceAux_eq_append s "" [] (by simpa using h)
  simpa [flatten_space] using this

theorem flatLeavesTup_map_fst
    (cs : List Space)
    (hcs : ∀ c ∈ cs, ∀ key,
      (flatLeaves c key).map Prod.fst = (specPaths c).map (fun p => key ++ p)) :
    ∀ i key, (flatLeavesTup cs i key).map Prod.fst =
      (specPathsTup cs i).map (fun p => key ++ p) := by
  induction cs with
  | nil => intro i key; simp [flatLeavesTup, specPathsTup]
  | cons c rest ih =>
      intro i key
      simp only [flatLeavesTup, specPathsTup, List.map_append]
      rw [hcs c (by simp), ih (fun c2 hc2 => hcs c2 (by simp [hc2]))]
      simp only [List.map_map]
      congr 1
      apply List.map_congr_left
      intro p _
      simp [String.append_assoc]

theorem flatLeavesDict_map_fst
    (cs : List (String × Space))
    (hcs : ∀ kc ∈ cs, ∀ key,
      (flatLeaves kc.2 key).map Prod.fst = (specPaths kc.2).map (fun p => key ++ p)) :
    ∀ key, (flatLeavesDict cs key).map Prod.fst =
      (specPathsDict cs).map (fun p => key ++ p) := by
  induction cs with
  | nil => intro key; simp [flatLeavesDict, specPathsDict]
  | cons kc rest ih =>
      obtain ⟨k, c⟩ := kc
      intro key
      simp only [flatLeavesDict, specPathsDict, List.map_append]
      rw [hcs (k, c) (by simp), ih (fun c2 hc2 => hcs c2 (by simp [hc2]))]
      simp only [List.map_map]
      congr 1
      apply List.map_congr_left
      intro p _
      simp [String.append_assoc]

/-- The leaf-list paths are exactly the key grammar of the spec, prefixed by the
accumulated path. -/
theorem flatLeaves_map_fst (s : Space) : ∀ key,
    (flatLeaves s key).map Prod.fst = (specPaths s).map (fun p => key ++ p) := by
  induction s using spaceInduction with
  | hb sh dt => intro key; simp [flatLeaves, specPaths]
  | hd n => intro key; simp [flatLeaves, specPaths]
  | hm nv => intro key; simp [flatLeaves, specPaths]
  | ht cs ih =>
      intro key
      simp only [flatLeaves, specPaths]
      exact flatLeavesTup_map_fst cs ih 0 key
  | hdct cs ih =>
      intro key
      simp only [flatLeaves, specPaths]
      exact flatLeavesDict_map_fst cs ih key

/-- C2: `flatten_space` is deterministic — structurally identical schemas
produce identical ordered key sequences — and, whenever the generated paths
are pairwise distinct, the key sequence is exactly the DFS
pre-order key grammar (`T{index}.` per tuple child, `D{key}.` per mapping
child, terminal `V`). -/
theorem flatten_space_deterministic (s1 s2 : Space) (h : s1 = s2) :
    (flatten_space s1).map Prod.fst = (flatten_space s2).map Prod.fst ∧
    (((flatLeaves s1 "").map Prod.fst).Nodup →
      (flatten_space s1).map Prod.fst = specPaths s1) := by
  subst h
  refine ⟨rfl, fun hnd => ?_⟩
  rw [flatten_space_eq_flatLeaves hnd, flatLeaves_map_fst]
  have hemp : (fun p : String => "" ++ p) = fun p => p :=
    funext fun p => String.empty_append p
  rw [hemp, List.map_id']

/-- Witness for C2, on the concrete schema of the spec. -/
theorem flatten_space_deterministic_witness :
    (flatten_space (Space.dict [("pos", .box [2] .float64), ("hp", .discrete 10)])).map
        Prod.fst =
      (flatten_space (Space.dict [("pos", .box [2] .float64), ("hp", .discrete 10)])).map
        Prod.fst ∧
    (flatten_space (Space.dict [("pos", .box [2] .float64), ("hp", .discrete 10)])).map
        Prod.fst =
      specPaths (Space.dict [("pos", .box [2] .float64), ("hp", .discrete 10)]) :=
  ⟨(flatten_space_deterministic _ _ rfl).1,
    (flatten_space_deterministic
      (Space.dict [("pos", .box [2] .float64), ("hp", .discrete 10)]) _ rfl).2 (by decide)⟩

/-- Witness for the amended C9 theorem. -/
theorem pz_unknown_agent_errors_witness :
    pzStep (PZState.mk ["p1", "p2"] ["p1", "p2"] true) [("ghost", (0 : ℤ))]
        (Except.ok (Sample.intS 0)) =
      .error (.invalidAgent "ghost" ["p1", "p2"]) ∧
    pzSpaceQuery (PZState.mk ["p1", "p2"] ["p1", "p2"] true) "ghost"
        (Except.ok (Sample.intS 0)) =
      .error (.invalidAgent "ghost" ["p1", "p2"]) :=
  pz_unknown_agent_errors (PZState.mk ["p1", "p2"] ["p1", "p2"] true)
    [("ghost", (0 : ℤ))] (Except.ok (Sample.intS 0)) (Except.ok (Sample.intS 0))
    "ghost" 0 "ghost" rfl (by decide) (by decide) (by decide)

/-! ### C10: `split` performs no length validation -/

theorem qtruncZ_intCast (z : ℤ) : qtruncZ ((z : ℚ)) = z := by
  unfold qtruncZ
  split <;> simp

theorem qtruncZ_castQ_int (q : ℚ) : qtruncZ (castQ .int64 q) = qtruncZ q := by
  rw [castQ, qtruncZ_intCast]

theorem sumSz_cons (k : String) (c : Space) (rest : List (String × Space)) :
    sumSz ((k, c) :: rest) = szOf c + sumSz rest := by
  simp [sumSz]

theorem slice0_oneD {d : List ℚ} {a b : Nat} (ha : a ≤ d.length) (hb : b ≤ d.length) :
    slice0 (.arr [d.length] d) a b = some (.arr [b - a] ((d.drop a).take (b - a))) := by
  simp [slice0, listProd, Nat.min_eq_left ha, Nat.min_eq_left hb]

theorem length_drop_take {d : List ℚ} {ptr sz : Nat} (h : ptr + sz ≤ d.length) :
    ((d.drop ptr).take sz).length = sz := by
  simp only [List.length_take, List.length_drop]
  omega

theorem reshape_arr (sh sh2 : List Nat) (dd : List ℚ) :
    reshape (.arr sh dd) sh2 =
      if dd.length = listProd sh2 then some (.arr sh2 dd) else none := rfl

theorem listProd_single (n : Nat) : listProd [n] = n := by
  simp [listProd]

theorem splitGo_cons_box (stacked : Sample) (k : String) (sh : List Nat) (dt : Dtype)
    (rest : List (String × Space)) (ptr : Nat) :
    splitGo stacked ((k, .box sh dt) :: rest) ptr =
      (slice0 stacked ptr (ptr + listProd sh)).bind (fun sl =>
        (reshape sl (if sh = [] then [1] else sh)).bind (fun rs =>
          (splitGo stacked rest (ptr + listProd sh)).bind (fun tail =>
            some ((k, astype rs dt) :: tail)))) := by
  simp only [splitGo, leafShapeDtype, Option.some_bind]
  rfl

theorem splitGo_cons_discrete (stacked : Sample) (k : String) (n : Nat)
    (rest : List (String × Space)) (ptr : Nat) :
    splitGo stacked ((k, .discrete n) :: rest) ptr =
      (slice0 stacked ptr (ptr + 1)).bind (fun sl =>
        (reshape sl [1]).bind (fun rs =>
          ((intOfFirst (astype rs .int64)).map Sample.intS).bind (fun v =>
            (splitGo stacked rest (ptr + 1)).bind (fun tail =>
              some ((k, v) :: tail))))) := by
  simp only [splitGo, leafShapeDtype, Option.some_bind]
  rfl

theorem splitGo_cons_multidiscrete (stacked : Sample) (k : String) (nv : List Nat)
    (rest : List (String × Space)) (ptr : Nat) :
    splitGo stacked ((k, .multidiscrete nv) :: rest) ptr =
      (slice0 stacked ptr (ptr + listProd [nv.length])).bind (fun sl =>
        (reshape sl [nv.length]).bind (fun rs =>
          (splitGo stacked rest (ptr + listProd [nv.length])).bind (fun tail =>
            some ((k, astype rs .int64) :: tail)))) := by
  simp only [splitGo, leafShapeDtype, Option.some_bind]
  rfl

/-- The split loop succeeds whenever the 1-D input covers the total
element count of the leaf-map from the current offset, and computes
`splitModel`. -/
theorem splitGo_success (fl : List (String × Space)) (d : List ℚ) :
    ∀ ptr, (∀ p ∈ fl, isLeafSp p.2 = true) → ptr + sumSz fl ≤ d.length →
    splitGo (.arr [d.length] d) fl ptr = some (splitModel fl d ptr) := by
  induction fl with
  | nil => intro ptr _ _; rfl
  | cons p rest ih =>
      obtain ⟨k, c⟩ := p
      intro ptr hleaf hlen
      rw [sumSz_cons] at hlen
      have hc : isLeafSp c = true := hleaf (k, c) (by simp)
      have hrest : ∀ q ∈ rest, isLeafSp q.2 = true := fun q hq => hleaf q (by simp [hq])
      have hsz : ptr + szOf c ≤ d.length := by omega
      have hseg : ((d.drop ptr).take (szOf c)).length = szOf c := length_drop_take hsz
      have htail := ih (ptr + szOf c) hrest (by omega)
      cases c with
      | box sh dt =>
          rw [splitGo_cons_box]
          simp only [szOf] at hsz hseg htail
          rw [slice0_oneD (by omega) (by omega), Option.some_bind]
          have harith : ptr + listProd sh - ptr = listProd sh := by omega
          rw [harith, reshape_arr]
          cases sh with
          | nil =>
              rw [if_pos rfl, if_pos (by simpa [listProd] using hseg)]
              rw [Option.some_bind, htail, Option.some_bind]
              simp [splitModel, astype, recon, szOf]
          | cons d0 ds =>
              rw [if_neg (List.cons_ne_nil d0 ds), if_pos hseg]
              rw [Option.some_bind, htail, Option.some_bind]
              simp [splitModel, astype, recon, szOf]
      | discrete n =>
          rw [splitGo_cons_discrete]
          simp only [szOf] at hsz hseg htail
          rw [slice0_oneD (by omega) (by omega), Option.some_bind]
          have harith : ptr + 1 - ptr = 1 := by omega
          rw [harith]
          obtain ⟨q, hq⟩ := List.length_eq_one.mp hseg
          rw [hq, reshape_arr, if_pos (by simp [listProd]), Option.some_bind]
          rw [show intOfFirst (astype (.arr [1] [q]) .int64) = some (qtruncZ q) from by
            simp [astype, intOfFirst, qtruncZ_castQ_int]]
          rw [Option.map_some', Option.some_bind, htail, Option.some_bind]
          simp [splitModel, recon, szOf, hq]
      | multidiscrete nv =>
          rw [splitGo_cons_multidiscrete, listProd_single]
          simp only [szOf] at hsz hseg htail
          rw [slice0_oneD (by omega) (by omega), Option.some_bind]
          have harith : ptr + nv.length - ptr = nv.length := by omega
          rw [harith, reshape_arr, if_pos (by simpa [listProd] using hseg)]
          rw [Option.some_bind, htail, Option.some_bind]
          simp [splitModel, astype, recon, szOf]
      | tup cs => simp [isLeafSp] at hc
      | dict cs => simp [isLeafSp] at hc


/-- The value `splitModel` only consults the first `ptr + sumSz fl` input elements. -/
theorem splitModel_take (fl : List (String × Space)) (d : List ℚ) :
    ∀ ptr N, ptr + sumSz fl ≤ N → splitModel fl (d.take N) ptr = splitModel fl d ptr := by
  induction fl with
  | nil => intro ptr N _; rfl
  | cons p rest ih =>
      obtain ⟨k, c⟩ := p
      intro ptr N h
      rw [sumSz_cons] at h
      simp only [splitModel]
      rw [List.drop_take, List.take_take, Nat.min_eq_left (by omega),
        ih (ptr + szOf c) N (by omega)]

/-- C10: on an unbatched 1-D input at least as long as the total
element count of the leaf-map, `split` succeeds with no length validation, and its result is
determined entirely by the first `sumSz`-many elements — trailing elements
are silently ignored. -/
theorem split_ignores_trailing (fl : List (String × Space)) (d : List ℚ)
    (hleaf : ∀ p ∈ fl, isLeafSp p.2 = true) (hlen : sumSz fl ≤ d.length) :
    split (.arr [d.length] d) fl = some (splitModel fl d 0) ∧
    split (.arr [d.length] d) fl =
      split (.arr [(d.take (sumSz fl)).length] (d.take (sumSz fl))) fl := by
  have h1 := splitGo_success fl d 0 hleaf (by omega)
  have hlen2 : (d.take (sumSz fl)).length = sumSz fl := by
    simp only [List.length_take]
    omega
  have h2 := splitGo_success fl (d.take (sumSz fl)) 0 hleaf (by omega)
  refine ⟨h1, ?_⟩
  rw [split, split, h1, h2]
  rw [splitModel_take fl d 0 (sumSz fl) (by omega)]

/-- Witness for C10: a one-leaf map over a 3-element vector — the two
trailing elements are ignored. -/
theorem split_ignores_trailing_witness :
    (∀ p ∈ [("Da.V", Space.discrete 3)], isLeafSp p.2 = true) ∧
    sumSz [("Da.V", Space.discrete 3)] ≤ ([(1 : ℚ), 5, 7]).length ∧
    (split (.arr [([(1 : ℚ), 5, 7]).length] [1, 5, 7]) [("Da.V", Space.discrete 3)] =
        some (splitModel [("Da.V", Space.discrete 3)] [1, 5, 7] 0) ∧
      split (.arr [([(1 : ℚ), 5, 7]).length] [1, 5, 7]) [("Da.V", Space.discrete 3)] =
        split (.arr [(([(1 : ℚ), 5, 7]).take (sumSz [("Da.V", Space.discrete 3)])).length]
          (([(1 : ℚ), 5, 7]).take (sumSz [("Da.V", Space.discrete 3)])))
          [("Da.V", Space.discrete 3)]) :=
  ⟨by decide, by decide,
    split_ignores_trailing [("Da.V", Space.discrete 3)] [1, 5, 7] (by decide) (by decide)⟩

/-! ### C1: the flatten/split/unflatten round trip -/

theorem flatMap_map_general {α β γ : Type} (f : α → β) (g : β → List γ) (l : List α) :
    (l.map f).flatMap g = l.flatMap (fun x => g (f x)) := by
  induction l with
  | nil => rfl
  | cons a rest ih => simp [ih]

theorem flatMap_congr_mem {α γ : Type} {l : List α} {g h : α → List γ}
    (hgh : ∀ x ∈ l, g x = h x) : l.flatMap g = l.flatMap h := by
  induction l with
  | nil => rfl
  | cons a rest ih =>
      simp only [List.flatMap_cons]
      rw [hgh a (by simp), ih (fun x hx => hgh x (by simp [hx]))]

theorem forall2_append {α β : Type} {R : α → β → Prop} {l1 u1 : List α} {l2 u2 : List β}
    (h1 : List.Forall₂ R l1 l2) (h2 : List.Forall₂ R u1 u2) :
    List.Forall₂ R (l1 ++ u1) (l2 ++ u2) := by
  induction h1 with
  | nil => exact h2
  | cons hab _ ih => exact List.Forall₂.cons hab ih

theorem python_flatten_eq (m : Sample) :
    python_flatten m = (origLeaves m).map wrapArr := by
  induction m using sampleInduction with
  | ha sh d => rfl
  | hi v => rfl
  | ht es ih =>
      simp only [python_flatten, origLeaves]
      induction es with
      | nil => rfl
      | cons e rest ihr =>
          simp only [pythonFlattenTup, origLeavesTup, List.map_append]
          rw [ih e (by simp), ihr (fun x hx => ih x (by simp [hx]))]
  | hdct es ih =>
      simp only [python_flatten, origLeaves]
      induction es with
      | nil => rfl
      | cons ke rest ihr =>
          obtain ⟨k, e⟩ := ke
          simp only [pythonFlattenDict, origLeavesDict, List.map_append]
          rw [ih (k, e) (by simp), ihr (fun x hx => ih x (by simp [hx]))]

theorem origLeaves_leafVal (m : Sample) : ∀ x ∈ origLeaves m, isLeafVal x = true := by
  induction m using sampleInduction with
  | ha sh d => intro x hx; simp only [origLeaves, List.mem_singleton] at hx; simp [hx, isLeafVal]
  | hi v => intro x hx; simp only [origLeaves, List.mem_singleton] at hx; simp [hx, isLeafVal]
  | ht es ih =>
      simp only [origLeaves]
      induction es with
      | nil => intro x hx; simp [origLeavesTup] at hx
      | cons e rest ihr =>
          intro x hx
          simp only [origLeavesTup, List.mem_append] at hx
          rcases hx with hx | hx
          · exact ih e (by simp) x hx
          · exact ihr (fun y hy => ih y (by simp [hy])) x hx
  | hdct es ih =>
      simp only [origLeaves]
      induction es with
      | nil => intro x hx; simp [origLeavesDict] at hx
      | cons ke rest ihr =>
          obtain ⟨k, e⟩ := ke
          intro x hx
          simp only [origLeavesDict, List.mem_append] at hx
          rcases hx with hx | hx
          · exact ih (k, e) (by simp) x hx
          · exact ihr (fun y hy => ih y (by simp [hy])) x hx

theorem ravAll_flatMap (m : Sample) : (origLeaves m).flatMap ravAll = ravAll m := by
  induction m using sampleInduction with
  | ha sh d => simp [origLeaves, ravAll]
  | hi v => simp [origLeaves, ravAll]
  | ht es ih =>
      simp only [origLeaves, ravAll]
      induction es with
      | nil => rfl
      | cons e rest ihr =>
          simp only [origLeavesTup, ravAllTup, List.flatMap_append]
          rw [ih e (by simp), ihr (fun x hx => ih x (by simp [hx]))]
  | hdct es ih =>
      simp only [origLeaves, ravAll]
      induction es with
      | nil => rfl
      | cons ke rest ihr =>
          obtain ⟨k, e⟩ := ke
          simp only [origLeavesDict, ravAllDict, List.flatMap_append]
          rw [ih (k, e) (by simp), ihr (fun x hx => ih x (by simp [hx]))]

theorem flatMap_ravelD_pyFlatten (m : Sample) :
    (python_flatten m).flatMap ravelD = ravAll m := by
  rw [python_flatten_eq, flatMap_map_general]
  rw [flatMap_congr_mem (h := ravAll) (fun x hx => by
    have hx2 := origLeaves_leafVal m x hx
    cases x <;> simp_all [ravelD, wrapArr, ravAll, isLeafVal])]
  exact ravAll_flatMap m

theorem leafSpaces_isLeaf (s : Space) : ∀ c ∈ leafSpaces s, isLeafSp c = true := by
  induction s using spaceInduction with
  | hb sh dt => intro c hc; simp only [leafSpaces, List.mem_singleton] at hc; simp [hc, isLeafSp]
  | hd n => intro c hc; simp only [leafSpaces, List.mem_singleton] at hc; simp [hc, isLeafSp]
  | hm nv => intro c hc; simp only [leafSpaces, List.mem_singleton] at hc; simp [hc, isLeafSp]
  | ht cs ih =>
      simp only [leafSpaces]
      induction cs with
      | nil => intro c hc; simp [leafSpacesTup] at hc
      | cons c0 rest ihr =>
          intro c hc
          simp only [leafSpacesTup, List.mem_append] at hc
          rcases hc with hc | hc
          · exact ih c0 (by simp) c hc
          · exact ihr (fun y hy => ih y (by simp [hy])) c hc
  | hdct cs ih =>
      simp only [leafSpaces]
      induction cs with
      | nil => intro c hc; simp [leafSpacesDict] at hc
      | cons kc rest ihr =>
          obtain ⟨k, c0⟩ := kc
          intro c hc
          simp only [leafSpacesDict, List.mem_append] at hc
          rcases hc with hc | hc
          · exact ih (k, c0) (by simp) c hc
          · exact ihr (fun y hy => ih y (by simp [hy])) c hc

theorem flatLeaves_map_snd (s : Space) : ∀ key,
    (flatLeaves s key).map Prod.snd = leafSpaces s := by
  induction s using spaceInduction with
  | hb sh dt => intro key; rfl
  | hd n => intro key; rfl
  | hm nv => intro key; rfl
  | ht cs ih =>
      intro key
      simp only [flatLeaves, leafSpaces]
      have haux : ∀ (cs2 : List Space), (∀ c ∈ cs2, ∀ key2,
          (flatLeaves c key2).map Prod.snd = leafSpaces c) → ∀ i,
          (flatLeavesTup cs2 i key).map Prod.snd = leafSpacesTup cs2 := by
        intro cs2 h2
        induction cs2 with
        | nil => intro i; rfl
        | cons c0 rest ihr =>
            intro i
            simp only [flatLeavesTup, leafSpacesTup, List.map_append]
            rw [h2 c0 (by simp), ihr (fun y hy => h2 y (by simp [hy]))]
      exact haux cs ih 0
  | hdct cs ih =>
      intro key
      simp only [flatLeaves, leafSpaces]
      induction cs with
      | nil => rfl
      | cons kc rest ihr =>
          obtain ⟨k, c0⟩ := kc
          simp only [flatLeavesDict, leafSpacesDict, List.map_append]
          rw [ih (k, c0) (by simp), ihr (fun y hy => ih y (by simp [hy]))]

/-- Structural conformance refines to leaf-wise conformance along the
traversal order. -/
theorem conforms_forall2 (s : Space) : ∀ m, conforms s m = true →
    List.Forall₂ (fun c lm => conforms c lm = true ∧ isLeafSp c = true)
      (leafSpaces s) (origLeaves m) := by
  induction s using spaceInduction with
  | hb sh dt =>
      intro m hm
      cases m with
      | arr sh2 d => exact List.Forall₂.cons ⟨hm, rfl⟩ List.Forall₂.nil
      | intS v => exact absurd hm (by simp [show conforms (Space.box sh dt) (Sample.intS v) = false from rfl])
      | tupS es => exact absurd hm (by simp [show conforms (Space.box sh dt) (Sample.tupS es) = false from rfl])
      | dictS es => exact absurd hm (by simp [show conforms (Space.box sh dt) (Sample.dictS es) = false from rfl])
  | hd n =>
      intro m hm
      cases m with
      | intS v => exact List.Forall₂.cons ⟨hm, rfl⟩ List.Forall₂.nil
      | arr sh2 d => exact absurd hm (by simp [show conforms (Space.discrete n) (Sample.arr sh2 d) = false from rfl])
      | tupS es => exact absurd hm (by simp [show conforms (Space.discrete n) (Sample.tupS es) = false from rfl])
      | dictS es => exact absurd hm (by simp [show conforms (Space.discrete n) (Sample.dictS es) = false from rfl])
  | hm nv =>
      intro m hm
      cases m with
      | arr sh2 d => exact List.Forall₂.cons ⟨hm, rfl⟩ List.Forall₂.nil
      | intS v => exact absurd hm (by simp [show conforms (Space.multidiscrete nv) (Sample.intS v) = false from rfl])
      | tupS es => exact absurd hm (by simp [show conforms (Space.multidiscrete nv) (Sample.tupS es) = false from rfl])
      | dictS es => exact absurd hm (by simp [show conforms (Space.multidiscrete nv) (Sample.dictS es) = false from rfl])
  | ht cs ih =>
      intro m hm
      cases m with
      | arr sh2 d => exact absurd hm (by simp [show conforms (Space.tup cs) (Sample.arr sh2 d) = false from rfl])
      | intS v => exact absurd hm (by simp [show conforms (Space.tup cs) (Sample.intS v) = false from rfl])
      | dictS es => exact absurd hm (by simp [show conforms (Space.tup cs) (Sample.dictS es) = false from rfl])
      | tupS es =>
          rw [show conforms (Space.tup cs) (Sample.tupS es) = conformsTup cs es from rfl] at hm
          simp only [leafSpaces, origLeaves]
          induction cs generalizing es with
          | nil =>
              cases es with
              | nil => exact List.Forall₂.nil
              | cons e rest => simp [conformsTup] at hm
          | cons c0 rest ihr =>
              cases es with
              | nil => simp [conformsTup] at hm
              | cons e erest =>
                  simp only [conformsTup, Bool.and_eq_true] at hm
                  simp only [leafSpacesTup, origLeavesTup]
                  exact forall2_append (ih c0 (by simp) e hm.1)
                    (ihr (fun y hy => ih y (by simp [hy])) erest hm.2)
  | hdct cs ih =>
      intro m hm
      cases m with
      | arr sh2 d => exact absurd hm (by simp [show conforms (Space.dict cs) (Sample.arr sh2 d) = false from rfl])
      | intS v => exact absurd hm (by simp [show conforms (Space.dict cs) (Sample.intS v) = false from rfl])
      | tupS es => exact absurd hm (by simp [show conforms (Space.dict cs) (Sample.tupS es) = false from rfl])
      | dictS es =>
          rw [show conforms (Space.dict cs) (Sample.dictS es) = conformsDict cs es from rfl] at hm
          simp only [leafSpaces, origLeaves]
          induction cs generalizing es with
          | nil =>
              cases es with
              | nil => exact List.Forall₂.nil
              | cons e rest => simp [conformsDict] at hm
          | cons kc rest ihr =>
              obtain ⟨k, c0⟩ := kc
              cases es with
              | nil => simp [conformsDict] at hm
              | cons ke erest =>
                  obtain ⟨k2, e⟩ := ke
                  simp only [conformsDict, Bool.and_eq_true] at hm
                  simp only [leafSpacesDict, origLeavesDict]
                  exact forall2_append (ih (k, c0) (by simp) e hm.1.2)
                    (ihr (fun y hy => ih y (by simp [hy])) erest hm.2)

theorem sumSz_append (a b : List (String × Space)) : sumSz (a ++ b) = sumSz a + sumSz b := by
  simp [sumSz]

/-- For a conforming sample, the total element count of the leaf-map matches
the length of the raveled data. -/
theorem sumSz_flatLeaves (s : Space) : ∀ m, conforms s m = true → ∀ key,
    sumSz (flatLeaves s key) = (ravAll m).length := by
  induction s using spaceInduction with
  | hb sh dt =>
      intro m hm key
      cases m with
      | arr sh2 d =>
          simp only [conforms, Bool.and_eq_true, decide_eq_true_eq] at hm
          simp [flatLeaves, sumSz, szOf, ravAll, hm.1.2]
      | intS v => exact absurd hm (by simp [show conforms (Space.box sh dt) (Sample.intS v) = false from rfl])
      | tupS es => exact absurd hm (by simp [show conforms (Space.box sh dt) (Sample.tupS es) = false from rfl])
      | dictS es => exact absurd hm (by simp [show conforms (Space.box sh dt) (Sample.dictS es) = false from rfl])
  | hd n =>
      intro m hm key
      cases m with
      | intS v => simp [flatLeaves, sumSz, szOf, ravAll]
      | arr sh2 d => exact absurd hm (by simp [show conforms (Space.discrete n) (Sample.arr sh2 d) = false from rfl])
      | tupS es => exact absurd hm (by simp [show conforms (Space.discrete n) (Sample.tupS es) = false from rfl])
      | dictS es => exact absurd hm (by simp [show conforms (Space.discrete n) (Sample.dictS es) = false from rfl])
  | hm nv =>
      intro m hm key
      cases m with
      | arr sh2 d =>
          simp only [conforms, Bool.and_eq_true, decide_eq_true_eq] at hm
          simp [flatLeaves, sumSz, szOf, ravAll, hm.1.2]
      | intS v => exact absurd hm (by simp [show conforms (Space.multidiscrete nv) (Sample.intS v) = false from rfl])
      | tupS es => exact absurd hm (by simp [show conforms (Space.multidiscrete nv) (Sample.tupS es) = false from rfl])
      | dictS es => exact absurd hm (by simp [show conforms (Space.multidiscrete nv) (Sample.dictS es) = false from rfl])
  | ht cs ih =>
      intro m hm key
      cases m with
      | arr sh2 d => exact absurd hm (by simp [show conforms (Space.tup cs) (Sample.arr sh2 d) = false from rfl])
      | intS v => exact absurd hm (by simp [show conforms (Space.tup cs) (Sample.intS v) = false from rfl])
      | dictS es => exact absurd hm (by simp [show conforms (Space.tup cs) (Sample.dictS es) = false from rfl])
      | tupS es =>
          rw [show conforms (Space.tup cs) (Sample.tupS es) = conformsTup cs es from rfl] at hm
          simp only [flatLeaves, ravAll]
          have haux : ∀ (cs2 : List Space) (es2 : List Sample), (∀ c ∈ cs2, ∀ m2,
              conforms c m2 = true → ∀ key2, sumSz (flatLeaves c key2) = (ravAll m2).length) →
              conformsTup cs2 es2 = true → ∀ i,
              sumSz (flatLeavesTup cs2 i key) = (ravAllTup es2).length := by
            intro cs2 es2 h2 hconf
            induction cs2 generalizing es2 with
            | nil =>
                cases es2 with
                | nil => intro i; rfl
                | cons e rest => simp [conformsTup] at hconf
            | cons c0 rest ihr =>
                cases es2 with
                | nil => simp [conformsTup] at hconf
                | cons e erest =>
                    simp only [conformsTup, Bool.and_eq_true] at hconf
                    intro i
                    simp only [flatLeavesTup, ravAllTup, sumSz_append, List.length_append]
                    rw [h2 c0 (by simp) e hconf.1 _,
                      ihr erest (fun y hy => h2 y (by simp [hy])) hconf.2 (i + 1)]
          exact haux cs es ih hm 0
  | hdct cs ih =>
      intro m hm key
      cases m with
      | arr sh2 d => exact absurd hm (by simp [show conforms (Space.dict cs) (Sample.arr sh2 d) = false from rfl])
      | intS v => exact absurd hm (by simp [show conforms (Space.dict cs) (Sample.intS v) = false from rfl])
      | tupS es => exact absurd hm (by simp [show conforms (Space.dict cs) (Sample.tupS es) = false from rfl])
      | dictS es =>
          rw [show conforms (Space.dict cs) (Sample.dictS es) = conformsDict cs es from rfl] at hm
          simp only [flatLeaves, ravAll]
          induction cs generalizing es with
          | nil =>
              cases es with
              | nil => rfl
              | cons e rest => simp [conformsDict] at hm
          | cons kc rest ihr =>
              obtain ⟨k, c0⟩ := kc
              cases es with
              | nil => simp [conformsDict] at hm
              | cons ke erest =>
                  obtain ⟨k2, e⟩ := ke
                  simp only [conformsDict, Bool.and_eq_true] at hm
                  simp only [flatLeavesDict, ravAllDict, sumSz_append, List.length_append]
                  rw [ih (k, c0) (by simp) e hm.1.2 _,
                    ihr (fun y hy => ih y (by simp [hy])) erest hm.2]

theorem splitModel_append (a b : List (String × Space)) (d : List ℚ) :
    ∀ ptr, splitModel (a ++ b) d ptr = splitModel a d ptr ++ splitModel b d (ptr + sumSz a) := by
  induction a with
  | nil => intro ptr; simp [splitModel, sumSz]
  | cons p rest ih =>
      obtain ⟨k, c⟩ := p
      intro ptr
      simp only [List.cons_append, splitModel, List.append_eq]
      rw [ih (ptr + szOf c), sumSz_cons]
      have harith : ptr + szOf c + sumSz rest = ptr + (szOf c + sumSz rest) := by omega
      rw [harith]

theorem castQ_float_map (d : List ℚ) : d.map (castQ .float64) = d := by
  induction d with
  | nil => rfl
  | cons q rest ih => simp [castQ, ih]

theorem castQ_int_of_isIntQ {q : ℚ} (h : isIntQ q = true) : castQ .int64 q = q := by
  rw [isIntQ, decide_eq_true_eq] at h
  have hz : ((q.num : ℚ)) = q := (Rat.den_eq_one_iff q).mp h
  rw [← hz, castQ, qtruncZ_intCast]

theorem castQ_int_map {d : List ℚ} (h : ∀ q ∈ d, isIntQ q = true) :
    d.map (castQ .int64) = d := by
  induction d with
  | nil => rfl
  | cons q rest ih =>
      rw [List.map_cons, castQ_int_of_isIntQ (h q (by simp)),
        ih (fun q2 hq2 => h q2 (by simp [hq2]))]

theorem get?_append_cons {α : Type} (pre : List α) (x : α) (post : List α) :
    (pre ++ x :: post).get? pre.length = some x := by
  induction pre with
  | nil => rfl
  | cons a rest ih => simpa using ih

/-- Extracting the segment of one leaf out of the concatenated data. -/
theorem seg_extract {pre post d : List ℚ} {sz : Nat} (hsz : sz = d.length) :
    ((pre ++ d ++ post).drop pre.length).take sz = d := by
  rw [List.append_assoc, List.drop_left, hsz]
  have := List.take_left d post
  rw [this]

/-- The values `split` computes over the concatenated conforming data are
exactly the leaf reconstructions, independent of the key prefix and of the
surrounding data. -/
theorem splitModel_flatLeaves (s : Space) : ∀ m, conforms s m = true →
    ∀ key (pre post : List ℚ),
    (splitModel (flatLeaves s key) (pre ++ ravAll m ++ post) pre.length).map Prod.snd =
      reconVals s m := by
  induction s using spaceInduction with
  | hb sh dt =>
      intro m hm key pre post
      cases m with
      | arr sh2 d =>
          have hm2 := hm
          simp only [conforms, Bool.and_eq_true, decide_eq_true_eq] at hm2
          simp only [flatLeaves, splitModel, ravAll, List.map_cons, List.map_nil]
          rw [show szOf (Space.box sh dt) = d.length from by simp [szOf, hm2.1.2]]
          rw [seg_extract rfl]
          simp [reconVals, leafSpaces, origLeaves, List.zipWith, ravAll]
      | intS v => exact absurd hm (by simp [show conforms (Space.box sh dt) (Sample.intS v) = false from rfl])
      | tupS es => exact absurd hm (by simp [show conforms (Space.box sh dt) (Sample.tupS es) = false from rfl])
      | dictS es => exact absurd hm (by simp [show conforms (Space.box sh dt) (Sample.dictS es) = false from rfl])
  | hd n =>
      intro m hm key pre post
      cases m with
      | intS v =>
          simp only [flatLeaves, splitModel, ravAll, List.map_cons, List.map_nil]
          rw [show szOf (Space.discrete n) = [(v : ℚ)].length from by simp [szOf]]
          rw [seg_extract rfl]
          simp [reconVals, leafSpaces, origLeaves, List.zipWith, ravAll]
      | arr sh2 d => exact absurd hm (by simp [show conforms (Space.discrete n) (Sample.arr sh2 d) = false from rfl])
      | tupS es => exact absurd hm (by simp [show conforms (Space.discrete n) (Sample.tupS es) = false from rfl])
      | dictS es => exact absurd hm (by simp [show conforms (Space.discrete n) (Sample.dictS es) = false from rfl])
  | hm nv =>
      intro m hm key pre post
      cases m with
      | arr sh2 d =>
          have hm2 := hm
          simp only [conforms, Bool.and_eq_true, decide_eq_true_eq] at hm2
          simp only [flatLeaves, splitModel, ravAll, List.map_cons, List.map_nil]
          rw [show szOf (Space.multidiscrete nv) = d.length from by simp [szOf, hm2.1.2]]
          rw [seg_extract rfl]
          simp [reconVals, leafSpaces, origLeaves, List.zipWith, ravAll]
      | intS v => exact absurd hm (by simp [show conforms (Space.multidiscrete nv) (Sample.intS v) = false from rfl])
      | tupS es => exact absurd hm (by simp [show conforms (Space.multidiscrete nv) (Sample.tupS es) = false from rfl])
      | dictS es => exact absurd hm (by simp [show conforms (Space.multidiscrete nv) (Sample.dictS es) = false from rfl])
  | ht cs ih =>
      intro m hm key pre post
      cases m with
      | arr sh2 d => exact absurd hm (by simp [show conforms (Space.tup cs) (Sample.arr sh2 d) = false from rfl])
      | intS v => exact absurd hm (by simp [show conforms (Space.tup cs) (Sample.intS v) = false from rfl])
      | dictS es => exact absurd hm (by simp [show conforms (Space.tup cs) (Sample.dictS es) = false from rfl])
      | tupS es =>
          rw [show conforms (Space.tup cs) (Sample.tupS es) = conformsTup cs es from rfl] at hm
          simp only [flatLeaves, ravAll, reconVals, leafSpaces, origLeaves]
          have haux : ∀ (cs2 : List Space) (es2 : List Sample), (∀ c ∈ cs2, ∀ m2,
              conforms c m2 = true → ∀ key2 (pre2 post2 : List ℚ),
              (splitModel (flatLeaves c key2) (pre2 ++ ravAll m2 ++ post2) pre2.length).map
                Prod.snd = reconVals c m2) →
              conformsTup cs2 es2 = true → ∀ i (pre2 post2 : List ℚ),
              (splitModel (flatLeavesTup cs2 i key) (pre2 ++ ravAllTup es2 ++ post2)
                pre2.length).map Prod.snd =
              List.zipWith (fun c lm => recon c (ravAll lm))
                (leafSpacesTup cs2) (origLeavesTup es2) := by
            intro cs2 es2 h2 hconf
            induction cs2 generalizing es2 with
            | nil =>
                cases es2 with
                | nil =>
                    intro i pre2 post2
                    simp [flatLeavesTup, splitModel, leafSpacesTup, origLeavesTup]
                | cons e rest => simp [conformsTup] at hconf
            | cons c0 rest ihr =>
                cases es2 with
                | nil => simp [conformsTup] at hconf
                | cons e erest =>
                    simp only [conformsTup, Bool.and_eq_true] at hconf
                    intro i pre2 post2
                    simp only [flatLeavesTup, ravAllTup, leafSpacesTup, origLeavesTup]
                    rw [splitModel_append, List.map_append]
                    have hlen1 : (leafSpaces c0).length = (origLeaves e).length :=
                      (conforms_forall2 c0 e hconf.1).length_eq
                    have h1 := h2 c0 (by simp) e hconf.1
                      (key ++ "T" ++ toString i ++ ".") pre2 (ravAllTup erest ++ post2)
                    rw [show pre2 ++ (ravAll e ++ ravAllTup erest) ++ post2 =
                      pre2 ++ ravAll e ++ (ravAllTup erest ++ post2) from by
                        simp [List.append_assoc]]
                    rw [h1]
                    have hsum : sumSz (flatLeaves c0 (key ++ "T" ++ toString i ++ ".")) =
                        (ravAll e).length := sumSz_flatLeaves c0 e hconf.1 _
                    have h2r := ihr erest (fun y hy => h2 y (by simp [hy])) hconf.2
                      (i + 1) (pre2 ++ ravAll e) post2
                    rw [show pre2 ++ ravAll e ++ ravAllTup erest ++ post2 =
                      pre2 ++ ravAll e ++ (ravAllTup erest ++ post2) from by
                        simp [List.append_assoc]] at h2r
                    rw [List.length_append] at h2r
                    rw [hsum, h2r, List.zipWith_append _ _ _ _ _ hlen1]
                    simp [reconVals]
          exact haux cs es ih hm 0 pre post
  | hdct cs ih =>
      intro m hm key pre post
      cases m with
      | arr sh2 d => exact absurd hm (by simp [show conforms (Space.dict cs) (Sample.arr sh2 d) = false from rfl])
      | intS v => exact absurd hm (by simp [show conforms (Space.dict cs) (Sample.intS v) = false from rfl])
      | tupS es => exact absurd hm (by simp [show conforms (Space.dict cs) (Sample.tupS es) = false from rfl])
      | dictS es =>
          rw [show conforms (Space.dict cs) (Sample.dictS es) = conformsDict cs es from rfl] at hm
          simp only [flatLeaves, ravAll, reconVals, leafSpaces, origLeaves]
          have haux : ∀ (cs2 : List (String × Space)) (es2 : List (String × Sample)),
              (∀ kc ∈ cs2, ∀ m2,
              conforms kc.2 m2 = true → ∀ key2 (pre2 post2 : List ℚ),
              (splitModel (flatLeaves kc.2 key2) (pre2 ++ ravAll m2 ++ post2) pre2.length).map
                Prod.snd = reconVals kc.2 m2) →
              conformsDict cs2 es2 = true → ∀ (pre2 post2 : List ℚ),
              (splitModel (flatLeavesDict cs2 key) (pre2 ++ ravAllDict es2 ++ post2)
                pre2.length).map Prod.snd =
              List.zipWith (fun c lm => recon c (ravAll lm))
                (leafSpacesDict cs2) (origLeavesDict es2) := by
            intro cs2 es2 h2 hconf
            induction cs2 generalizing es2 with
            | nil =>
                cases es2 with
                | nil =>
                    intro pre2 post2
                    simp [flatLeavesDict, splitModel, leafSpacesDict, origLeavesDict]
                | cons e rest => simp [conformsDict] at hconf
            | cons kc rest ihr =>
                obtain ⟨k, c0⟩ := kc
                cases es2 with
                | nil => simp [conformsDict] at hconf
                | cons ke erest =>
                    obtain ⟨k2, e⟩ := ke
                    simp only [conformsDict, Bool.and_eq_true] at hconf
                    intro pre2 post2
                    simp only [flatLeavesDict, ravAllDict, leafSpacesDict, origLeavesDict]
                    rw [splitModel_append, List.map_append]
                    have hlen1 : (leafSpaces c0).length = (origLeaves e).length :=
                      (conforms_forall2 c0 e hconf.1.2).length_eq
                    have h1 := h2 (k, c0) (by simp) e hconf.1.2
                      (key ++ "D" ++ k ++ ".") pre2 (ravAllDict erest ++ post2)
                    rw [show pre2 ++ (ravAll e ++ ravAllDict erest) ++ post2 =
                      pre2 ++ ravAll e ++ (ravAllDict erest ++ post2) from by
                        simp [List.append_assoc]]
                    rw [h1]
                    have hsum : sumSz (flatLeaves c0 (key ++ "D" ++ k ++ ".")) =
                        (ravAll e).length := sumSz_flatLeaves c0 e hconf.1.2 _
                    have h2r := ihr erest (fun y hy => h2 y (by simp [hy])) hconf.2
                      (pre2 ++ ravAll e) post2
                    rw [show pre2 ++ ravAll e ++ ravAllDict erest ++ post2 =
                      pre2 ++ ravAll e ++ (ravAllDict erest ++ post2) from by
                        simp [List.append_assoc]] at h2r
                    rw [List.length_append] at h2r
                    rw [hsum, h2r, List.zipWith_append _ _ _ _ _ hlen1]
                    simp [reconVals]
          exact haux cs es ih hm pre post

theorem mem_zip_left {α β : Type} : ∀ (d : List α) (nv : List β), d.length = nv.length →
    ∀ q ∈ d, ∃ b, (q, b) ∈ d.zip nv := by
  intro d
  induction d with
  | nil => intro nv h q hq; simp at hq
  | cons a rest ih =>
      intro nv h q hq
      cases nv with
      | nil => simp at h
      | cons b nvrest =>
          rcases List.mem_cons.mp hq with rfl | hq2
          · exact ⟨b, by simp⟩
          · obtain ⟨b2, hb2⟩ := ih nvrest (by simpa using h) q hq2
            exact ⟨b2, by simp [hb2]⟩

/-- The unflatten recursion, fed the reconstructed leaf values at the
cursor position, rebuilds a sample element-wise equal to the original and
advances the cursor past exactly the consumed leaves. -/
theorem pythonUnflattenAux_reconVals (s : Space) : ∀ m, conforms s m = true →
    ∀ (pre post : List Sample),
    ∃ m2, pythonUnflattenAux (pre ++ reconVals s m ++ post) s pre.length =
        some (m2, pre.length + (reconVals s m).length) ∧ eqElem m2 m = true := by
  induction s using spaceInduction with
  | hb sh dt =>
      intro m hm pre post
      cases m with
      | arr sh2 d =>
          have hm2 := hm
          simp only [conforms, Bool.and_eq_true, Bool.or_eq_true, decide_eq_true_eq,
            List.all_eq_true] at hm2
          obtain ⟨⟨hsh, hlen⟩, hdt⟩ := hm2
          subst hsh
          have hdata : d.map (castQ dt) = d := by
            cases dt with
            | float64 => exact castQ_float_map d
            | int64 =>
                rcases hdt with hf | hi
                · exact absurd hf (by decide)
                · exact castQ_int_map hi
          have hrv : reconVals (Space.box sh2 dt) (Sample.arr sh2 d) =
              [recon (Space.box sh2 dt) d] := by
            simp [reconVals, leafSpaces, origLeaves, List.zipWith, ravAll]
          rw [hrv]
          refine ⟨recon (Space.box sh2 dt) d, ?_, ?_⟩
          · simp only [pythonUnflattenAux]
            rw [show pre ++ [recon (Space.box sh2 dt) d] ++ post =
              pre ++ recon (Space.box sh2 dt) d :: post from by simp]
            rw [get?_append_cons]
            rfl
          · cases sh2 with
            | nil => simp [recon, eqElem, broadcastEq, hdata]
            | cons d0 ds => simp [recon, eqElem, broadcastEq, hdata]
      | intS v => exact absurd hm (by simp [show conforms (Space.box sh dt) (Sample.intS v) = false from rfl])
      | tupS es => exact absurd hm (by simp [show conforms (Space.box sh dt) (Sample.tupS es) = false from rfl])
      | dictS es => exact absurd hm (by simp [show conforms (Space.box sh dt) (Sample.dictS es) = false from rfl])
  | hd n =>
      intro m hm pre post
      cases m with
      | intS v =>
          have hrv : reconVals (Space.discrete n) (Sample.intS v) = [Sample.intS v] := by
            simp [reconVals, leafSpaces, origLeaves, List.zipWith, ravAll, recon,
              qtruncZ_intCast]
          rw [hrv]
          refine ⟨Sample.intS v, ?_, by simp [eqElem]⟩
          simp only [pythonUnflattenAux]
          rw [show pre ++ [Sample.intS v] ++ post = pre ++ Sample.intS v :: post from by simp]
          rw [get?_append_cons]
          simp [intCast]
      | arr sh2 d => exact absurd hm (by simp [show conforms (Space.discrete n) (Sample.arr sh2 d) = false from rfl])
      | tupS es => exact absurd hm (by simp [show conforms (Space.discrete n) (Sample.tupS es) = false from rfl])
      | dictS es => exact absurd hm (by simp [show conforms (Space.discrete n) (Sample.dictS es) = false from rfl])
  | hm nv =>
      intro m hm pre post
      cases m with
      | arr sh2 d =>
          have hm2 := hm
          simp only [conforms, Bool.and_eq_true, Bool.or_eq_true, decide_eq_true_eq,
            List.all_eq_true] at hm2
          obtain ⟨⟨hsh, hlen⟩, hzip⟩ := hm2
          subst hsh
          have hint : ∀ q ∈ d, isIntQ q = true := by
            intro q hq
            obtain ⟨b, hb⟩ := mem_zip_left d nv hlen q hq
            have := hzip (q, b) hb
            simp only [Bool.and_eq_true] at this
            exact this.1.1
          have hdata : d.map (castQ .int64) = d := castQ_int_map hint
          have hrv : reconVals (Space.multidiscrete nv) (Sample.arr [nv.length] d) =
              [Sample.arr [nv.length] d] := by
            simp [reconVals, leafSpaces, origLeaves, List.zipWith, ravAll, recon, hdata]
          rw [hrv]
          refine ⟨Sample.arr [nv.length] d, ?_, by simp [eqElem, broadcastEq]⟩
          simp only [pythonUnflattenAux]
          rw [show pre ++ [Sample.arr [nv.length] d] ++ post =
            pre ++ Sample.arr [nv.length] d :: post from by simp]
          rw [get?_append_cons]
          rfl
      | intS v => exact absurd hm (by simp [show conforms (Space.multidiscrete nv) (Sample.intS v) = false from rfl])
      | tupS es => exact absurd hm (by simp [show conforms (Space.multidiscrete nv) (Sample.tupS es) = false from rfl])
      | dictS es => exact absurd hm (by simp [show conforms (Space.multidiscrete nv) (Sample.dictS es) = false from rfl])
  | ht cs ih =>
      intro m hm pre post
      cases m with
      | arr sh2 d => exact absurd hm (by simp [show conforms (Space.tup cs) (Sample.arr sh2 d) = false from rfl])
      | intS v => exact absurd hm (by simp [show conforms (Space.tup cs) (Sample.intS v) = false from rfl])
      | dictS es => exact absurd hm (by simp [show conforms (Space.tup cs) (Sample.dictS es) = false from rfl])
      | tupS es =>
          rw [show conforms (Space.tup cs) (Sample.tupS es) = conformsTup cs es from rfl] at hm
          simp only [reconVals, leafSpaces, origLeaves]
          have haux : ∀ (cs2 : List Space) (es2 : List Sample), (∀ c ∈ cs2, ∀ m2,
              conforms c m2 = true → ∀ (pre2 post2 : List Sample),
              ∃ m3, pythonUnflattenAux (pre2 ++ reconVals c m2 ++ post2) c pre2.length =
                  some (m3, pre2.length + (reconVals c m2).length) ∧ eqElem m3 m2 = true) →
              conformsTup cs2 es2 = true → ∀ (pre2 post2 : List Sample),
              ∃ ms, pythonUnflattenTup
                  (pre2 ++ List.zipWith (fun c lm => recon c (ravAll lm))
                    (leafSpacesTup cs2) (origLeavesTup es2) ++ post2) cs2 pre2.length =
                some (ms, pre2.length + (List.zipWith (fun c lm => recon c (ravAll lm))
                  (leafSpacesTup cs2) (origLeavesTup es2)).length) ∧
                eqElemTup ms es2 = true := by
            intro cs2 es2 h2 hconf
            induction cs2 generalizing es2 with
            | nil =>
                cases es2 with
                | nil =>
                    intro pre2 post2
                    exact ⟨[], by simp [pythonUnflattenTup, leafSpacesTup, origLeavesTup],
                      by simp [eqElemTup]⟩
                | cons e rest => simp [conformsTup] at hconf
            | cons c0 rest ihr =>
                cases es2 with
                | nil => simp [conformsTup] at hconf
                | cons e erest =>
                    simp only [conformsTup, Bool.and_eq_true] at hconf
                    intro pre2 post2
                    have hlen1 : (leafSpaces c0).length = (origLeaves e).length :=
                      (conforms_forall2 c0 e hconf.1).length_eq
                    simp only [leafSpacesTup, origLeavesTup]
                    rw [List.zipWith_append _ _ _ _ _ hlen1]
                    obtain ⟨m1, hu1, he1⟩ := h2 c0 (by simp) e hconf.1 pre2
                      (List.zipWith (fun c lm => recon c (ravAll lm))
                        (leafSpacesTup rest) (origLeavesTup erest) ++ post2)
                    simp only [reconVals] at hu1
                    obtain ⟨ms, hu2, he2⟩ := ihr erest
                      (fun y hy => h2 y (by simp [hy])) hconf.2
                      (pre2 ++ List.zipWith (fun c lm => recon c (ravAll lm))
                        (leafSpaces c0) (origLeaves e)) post2
                    rw [show pre2 ++ List.zipWith (fun c lm => recon c (ravAll lm))
                          (leafSpaces c0) (origLeaves e) ++
                        List.zipWith (fun c lm => recon c (ravAll lm))
                          (leafSpacesTup rest) (origLeavesTup erest) ++ post2 =
                      pre2 ++ List.zipWith (fun c lm => recon c (ravAll lm))
                          (leafSpaces c0) (origLeaves e) ++
                        (List.zipWith (fun c lm => recon c (ravAll lm))
                          (leafSpacesTup rest) (origLeavesTup erest) ++ post2) from by
                      simp [List.append_assoc]] at hu2
                    rw [List.length_append] at hu2
                    refine ⟨m1 :: ms, ?_, by simp [eqElemTup, he1, he2]⟩
                    simp only [pythonUnflattenTup]
                    rw [show pre2 ++ (List.zipWith (fun c lm => recon c (ravAll lm))
                        (leafSpaces c0) (origLeaves e) ++
                        List.zipWith (fun c lm => recon c (ravAll lm))
                          (leafSpacesTup rest) (origLeavesTup erest)) ++ post2 =
                      pre2 ++ List.zipWith (fun c lm => recon c (ravAll lm))
                          (leafSpaces c0) (origLeaves e) ++
                        (List.zipWith (fun c lm => recon c (ravAll lm))
                          (leafSpacesTup rest) (origLeavesTup erest) ++ post2) from by
                      simp [List.append_assoc]]
                    rw [hu1, Option.some_bind, hu2, Option.map_some']
                    rw [show pre2.length + (List.zipWith (fun c lm => recon c (ravAll lm))
                        (leafSpaces c0) (origLeaves e) ++
                        List.zipWith (fun c lm => recon c (ravAll lm))
                          (leafSpacesTup rest) (origLeavesTup erest)).length =
                      pre2.length + (List.zipWith (fun c lm => recon c (ravAll lm))
                          (leafSpaces c0) (origLeaves e)).length +
                        (List.zipWith (fun c lm => recon c (ravAll lm))
                          (leafSpacesTup rest) (origLeavesTup erest)).length from by
                      simp [List.length_append, Nat.add_assoc]]
          obtain ⟨ms, hu, he⟩ := haux cs es ih hm pre post
          refine ⟨Sample.tupS ms, ?_, by simp [eqElem, he]⟩
          simp only [pythonUnflattenAux]
          rw [hu, Option.map_some']
  | hdct cs ih =>
      intro m hm pre post
      cases m with
      | arr sh2 d => exact absurd hm (by simp [show conforms (Space.dict cs) (Sample.arr sh2 d) = false from rfl])
      | intS v => exact absurd hm (by simp [show conforms (Space.dict cs) (Sample.intS v) = false from rfl])
      | tupS es => exact absurd hm (by simp [show conforms (Space.dict cs) (Sample.tupS es) = false from rfl])
      | dictS es =>
          rw [show conforms (Space.dict cs) (Sample.dictS es) = conformsDict cs es from rfl] at hm
          simp only [reconVals, leafSpaces, origLeaves]
          have haux : ∀ (cs2 : List (String × Space)) (es2 : List (String × Sample)),
              (∀ kc ∈ cs2, ∀ m2,
              conforms kc.2 m2 = true → ∀ (pre2 post2 : List Sample),
              ∃ m3, pythonUnflattenAux (pre2 ++ reconVals kc.2 m2 ++ post2) kc.2 pre2.length =
                  some (m3, pre2.length + (reconVals kc.2 m2).length) ∧
                  eqElem m3 m2 = true) →
              conformsDict cs2 es2 = true → ∀ (pre2 post2 : List Sample),
              ∃ ms, pythonUnflattenDict
                  (pre2 ++ List.zipWith (fun c lm => recon c (ravAll lm))
                    (leafSpacesDict cs2) (origLeavesDict es2) ++ post2) cs2 pre2.length =
                some (ms, pre2.length + (List.zipWith (fun c lm => recon c (ravAll lm))
                  (leafSpacesDict cs2) (origLeavesDict es2)).length) ∧
                eqElemDict ms es2 = true := by
            intro cs2 es2 h2 hconf
            induction cs2 generalizing es2 with
            | nil =>
                cases es2 with
                | nil =>
                    intro pre2 post2
                    exact ⟨[], by simp [pythonUnflattenDict, leafSpacesDict, origLeavesDict],
                      by simp [eqElemDict]⟩
                | cons e rest => simp [conformsDict] at hconf
            | cons kc rest ihr =>
                obtain ⟨k, c0⟩ := kc
                cases es2 with
                | nil => simp [conformsDict] at hconf
                | cons ke erest =>
                    obtain ⟨k2, e⟩ := ke
                    simp only [conformsDict, Bool.and_eq_true, decide_eq_true_eq] at hconf
                    intro pre2 post2
                    have hlen1 : (leafSpaces c0).length = (origLeaves e).length :=
                      (conforms_forall2 c0 e hconf.1.2).length_eq
                    simp only [leafSpacesDict, origLeavesDict]
                    rw [List.zipWith_append _ _ _ _ _ hlen1]
                    obtain ⟨m1, hu1, he1⟩ := h2 (k, c0) (by simp) e hconf.1.2 pre2
                      (List.zipWith (fun c lm => recon c (ravAll lm))
                        (leafSpacesDict rest) (origLeavesDict erest) ++ post2)
                    simp only [reconVals] at hu1
                    obtain ⟨ms, hu2, he2⟩ := ihr erest
                      (fun y hy => h2 y (by simp [hy])) hconf.2
                      (pre2 ++ List.zipWith (fun c lm => recon c (ravAll lm))
                        (leafSpaces c0) (origLeaves e)) post2
                    rw [show pre2 ++ List.zipWith (fun c lm => recon c (ravAll lm))
                          (leafSpaces c0) (origLeaves e) ++
                        List.zipWith (fun c lm => recon c (ravAll lm))
                          (leafSpacesDict rest) (origLeavesDict erest) ++ post2 =
                      pre2 ++ List.zipWith (fun c lm => recon c (ravAll lm))
                          (leafSpaces c0) (origLeaves e) ++
                        (List.zipWith (fun c lm => recon c (ravAll lm))
                          (leafSpacesDict rest) (origLeavesDict erest) ++ post2) from by
                      simp [List.append_assoc]] at hu2
                    rw [List.length_append] at hu2
                    refine ⟨(k, m1) :: ms, ?_, by simp [eqElemDict, he1, he2, hconf.1.1]⟩
                    simp only [pythonUnflattenDict]
                    rw [show pre2 ++ (List.zipWith (fun c lm => recon c (ravAll lm))
                        (leafSpaces c0) (origLeaves e) ++
                        List.zipWith (fun c lm => recon c (ravAll lm))
                          (leafSpacesDict rest) (origLeavesDict erest)) ++ post2 =
                      pre2 ++ List.zipWith (fun c lm => recon c (ravAll lm))
                          (leafSpaces c0) (origLeaves e) ++
                        (List.zipWith (fun c lm => recon c (ravAll lm))
                          (leafSpacesDict rest) (origLeavesDict erest) ++ post2) from by
                      simp [List.append_assoc]]
                    rw [hu1, Option.some_bind, hu2, Option.map_some']
                    rw [show pre2.length + (List.zipWith (fun c lm => recon c (ravAll lm))
                        (leafSpaces c0) (origLeaves e) ++
                        List.zipWith (fun c lm => recon c (ravAll lm))
                          (leafSpacesDict rest) (origLeavesDict erest)).length =
                      pre2.length + (List.zipWith (fun c lm => recon c (ravAll lm))
                          (leafSpaces c0) (origLeaves e)).length +
                        (List.zipWith (fun c lm => recon c (ravAll lm))
                          (leafSpacesDict rest) (origLeavesDict erest)).length from by
                      simp [List.length_append, Nat.add_assoc]]
          obtain ⟨ms, hu, he⟩ := haux cs es ih hm pre post
          refine ⟨Sample.dictS ms, ?_, by simp [eqElem, he]⟩
          simp only [pythonUnflattenAux]
          rw [hu, Option.map_some']

/-- Splitting a raw (not raveled) multi-dimensional array against its own
single-leaf map: the numpy axis-0 slice `[0:sz]` grabs the whole array, so the
leaf is reconstructed intact. -/
theorem splitGo_box_exact (k : String) (d0 : Nat) (ds : List Nat) (dt : Dtype) (d : List ℚ)
    (hlen : d.length = listProd (d0 :: ds)) :
    splitGo (.arr (d0 :: ds) d) [(k, .box (d0 :: ds) dt)] 0 =
      some [(k, .arr (d0 :: ds) (d.map (castQ dt)))] := by
  rw [splitGo_cons_box]
  rcases Nat.eq_zero_or_pos (listProd ds) with hr | hr
  · have hsz0 : listProd (d0 :: ds) = 0 := by simp [listProd, hr]
    have hd0 : d = [] := List.length_eq_zero.mp (by rw [hlen, hsz0])
    subst hd0
    rw [show slice0 (Sample.arr (d0 :: ds) []) 0 (0 + listProd (d0 :: ds)) =
      some (.arr (0 :: ds) []) from by
        simp [slice0, hsz0]]
    rw [Option.some_bind]
    rw [show reshape (Sample.arr (0 :: ds) [])
        (if (d0 :: ds : List Nat) = [] then [1] else d0 :: ds) =
      some (.arr (d0 :: ds) []) from by
        simp [reshape, hsz0]]
    rw [Option.some_bind]
    rw [show splitGo (Sample.arr (d0 :: ds) ([] : List ℚ)) [] (0 + listProd (d0 :: ds)) =
      some [] from rfl]
    rw [Option.some_bind]
    simp [astype]
  · have hd0le : d0 ≤ d0 * listProd ds := Nat.le_mul_of_pos_right d0 hr
    rw [show slice0 (Sample.arr (d0 :: ds) d) 0 (0 + listProd (d0 :: ds)) =
      some (.arr (d0 :: ds) d) from by
        simp only [slice0, Nat.zero_add, Nat.min_zero, Nat.zero_min, Nat.zero_mul,
          List.drop_zero, Nat.sub_zero]
        rw [show min (listProd (d0 :: ds)) d0 = d0 from by
          simp only [listProd]
          omega]
        rw [show d.take (d0 * listProd ds) = d from by
          rw [show d0 * listProd ds = d.length from by rw [hlen]; simp [listProd]]
          exact List.take_length d]]
    rw [Option.some_bind]
    rw [show reshape (Sample.arr (d0 :: ds) d)
        (if (d0 :: ds : List Nat) = [] then [1] else d0 :: ds) =
      some (.arr (d0 :: ds) d) from by
        simp [reshape, hlen]]
    rw [Option.some_bind]
    rw [show splitGo (Sample.arr (d0 :: ds) d) [] (0 + listProd (d0 :: ds)) =
      some [] from rfl]
    rw [Option.some_bind]
    simp [astype]

/-- Splitting the single-leaf short-circuit value: all leaf kinds except
the 0-d `Box` reconstruct the leaf. -/
theorem splitGo_single_leaf {c : Space} {lm : Sample} (hconf : conforms c lm = true)
    (hleaf : isLeafSp c = true) (hnb : ∀ dt2, c ≠ Space.box [] dt2) (k : String) :
    splitGo (wrapArr lm) [(k, c)] 0 = some [(k, recon c (ravAll lm))] := by
  cases c with
  | box sh dt =>
      cases lm with
      | arr sh2 d =>
          have hm2 := hconf
          simp only [conforms, Bool.and_eq_true, Bool.or_eq_true, decide_eq_true_eq,
            List.all_eq_true] at hm2
          obtain ⟨⟨hsh, hlen⟩, _⟩ := hm2
          subst hsh
          cases sh2 with
          | nil => exact absurd rfl (hnb dt)
          | cons d0 ds =>
              rw [show wrapArr (Sample.arr (d0 :: ds) d) = Sample.arr (d0 :: ds) d from rfl]
              rw [splitGo_box_exact k d0 ds dt d hlen]
              simp [recon, ravAll]
      | intS v => exact absurd hconf (by simp [show conforms (Space.box sh dt) (Sample.intS v) = false from rfl])
      | tupS es => exact absurd hconf (by simp [show conforms (Space.box sh dt) (Sample.tupS es) = false from rfl])
      | dictS es => exact absurd hconf (by simp [show conforms (Space.box sh dt) (Sample.dictS es) = false from rfl])
  | discrete n =>
      cases lm with
      | intS v =>
          rw [show wrapArr (Sample.intS v) = Sample.arr [1] [(v : ℚ)] from rfl]
          have h := splitGo_success [(k, Space.discrete n)] [(v : ℚ)] 0 (by simp [isLeafSp])
            (by simp [sumSz, szOf])
          rw [show Sample.arr [([(v : ℚ)]).length] [(v : ℚ)] = Sample.arr [1] [(v : ℚ)]
            from rfl] at h
          rw [h]
          simp [splitModel, recon, ravAll, szOf]
      | arr sh2 d => exact absurd hconf (by simp [show conforms (Space.discrete n) (Sample.arr sh2 d) = false from rfl])
      | tupS es => exact absurd hconf (by simp [show conforms (Space.discrete n) (Sample.tupS es) = false from rfl])
      | dictS es => exact absurd hconf (by simp [show conforms (Space.discrete n) (Sample.dictS es) = false from rfl])
  | multidiscrete nv =>
      cases lm with
      | arr sh2 d =>
          have hm2 := hconf
          simp only [conforms, Bool.and_eq_true, Bool.or_eq_true, decide_eq_true_eq,
            List.all_eq_true] at hm2
          obtain ⟨⟨hsh, hlen⟩, _⟩ := hm2
          subst hsh
          rw [show wrapArr (Sample.arr [nv.length] d) = Sample.arr [nv.length] d from rfl]
          have h := splitGo_success [(k, Space.multidiscrete nv)] d 0 (by simp [isLeafSp])
            (by simp [sumSz, szOf]; omega)
          rw [show Sample.arr [d.length] d = Sample.arr [nv.length] d from by rw [hlen]] at h
          rw [h]
          have htake : d.take (szOf (Space.multidiscrete nv)) = d := by
            rw [show szOf (Space.multidiscrete nv) = d.length from by simp [szOf, hlen]]
            exact List.take_length d
          simp [splitModel, recon, ravAll, htake]
      | intS v => exact absurd hconf (by simp [show conforms (Space.multidiscrete nv) (Sample.intS v) = false from rfl])
      | tupS es => exact absurd hconf (by simp [show conforms (Space.multidiscrete nv) (Sample.tupS es) = false from rfl])
      | dictS es => exact absurd hconf (by simp [show conforms (Space.multidiscrete nv) (Sample.dictS es) = false from rfl])
  | tup cs => simp [isLeafSp] at hleaf
  | dict cs => simp [isLeafSp] at hleaf

theorem optionBindSome {α β : Type} (a : α) (f : α → Option β) :
    (some a : Option α) >>= f = f a := rfl

/-- C1 counterexample: the claimed round trip fails, even on conforming
samples, (i) for a schema that is a single 0-d leaf-range — the single-leaf
short-circuit hands `split` a 0-d array, which cannot be sliced; (ii) for a
leafless schema — `np.concatenate([])` raises; (iii) for a schema whose
generated flat paths collide — the flat dict collapses two leaves into one
entry, so unflattening runs out of leaf values. -/
theorem roundTrip_counterexample :
    (conforms (Space.box [] .float64) (Sample.arr [] [5]) = true ∧
      roundTrip (Space.box [] .float64) (Sample.arr [] [5]) = none) ∧
    (conforms (Space.tup []) (Sample.tupS []) = true ∧
      roundTrip (Space.tup []) (Sample.tupS []) = none) ∧
    (conforms (Space.dict [("a", Space.dict [("b", Space.box [1] .float64)]),
        ("a.Db", Space.box [1] .float64)])
      (Sample.dictS [("a", Sample.dictS [("b", Sample.arr [1] [3])]),
        ("a.Db", Sample.arr [1] [4])]) = true ∧
      roundTrip (Space.dict [("a", Space.dict [("b", Space.box [1] .float64)]),
        ("a.Db", Space.box [1] .float64)])
        (Sample.dictS [("a", Sample.dictS [("b", Sample.arr [1] [3])]),
          ("a.Db", Sample.arr [1] [4])]) = none) :=
  ⟨⟨rfl, rfl⟩, ⟨rfl, rfl⟩, ⟨rfl, rfl⟩⟩

/-- C1 (amended): for every schema whose flat leaf-map is nonempty and whose
generated paths are pairwise distinct, excepting the single 0-d leaf-range
schema, and for every conforming sample, unflattening
`split(concatenate(flatten(sample)), flat_leaf_map, batched=False)` with the
same schema reproduces the original sample element-wise, with each
categorical leaf recovered as a plain integer scalar. -/
theorem roundTrip_reproduces (s : Space) (m : Sample)
    (hconf : conforms s m = true)
    (hkeys : ((flatLeaves s "").map Prod.fst).Nodup)
    (hgood : goodFlat (flatten_space s) = true) :
    ∃ out, roundTrip s m = some out ∧ eqElem out m = true := by
  have hfs : flatten_space s = flatLeaves s "" := flatten_space_eq_flatLeaves hkeys
  have hF := conforms_forall2 s m hconf
  have hsnd : (flatLeaves s "").map Prod.snd = leafSpaces s := flatLeaves_map_snd s ""
  have hlenL : (origLeaves m).length = (leafSpaces s).length := hF.length_eq.symm
  have hpf : python_flatten m = (origLeaves m).map wrapArr := python_flatten_eq m
  obtain ⟨m2, hu, he⟩ := pythonUnflattenAux_reconVals s m hconf [] []
  simp only [List.nil_append, List.append_nil, List.length_nil, Nat.zero_add] at hu
  cases hL : flatLeaves s "" with
  | nil =>
      rw [hfs, hL] at hgood
      simp [goodFlat] at hgood
  | cons p rest =>
    obtain ⟨k, c⟩ := p
    cases rest with
    | nil =>
        have hls : leafSpaces s = [c] := by rw [← hsnd, hL]; rfl
        rw [hls] at hF
        obtain ⟨lm, om2, ⟨hcl, hleafc⟩, hF2, hom⟩ := List.forall₂_cons_left_iff.mp hF
        have hom2 : om2 = [] := List.forall₂_nil_left_iff.mp hF2
        subst hom2
        have hnb : ∀ dt2, c ≠ Space.box [] dt2 := by
          intro dt2 hc
          subst hc
          rw [hfs, hL] at hgood
          rw [show goodFlat [(k, Space.box [] dt2)] = false from rfl] at hgood
          exact absurd hgood (by simp)
        have hvals : reconVals s m = [recon c (ravAll lm)] := by
          rw [reconVals, hls, hom]
          rfl
        refine ⟨m2, ?_, he⟩
        simp only [roundTrip]
        rw [hpf, hom]
        rw [show concatenate ([lm].map wrapArr) = some (wrapArr lm) from rfl]
        rw [optionBindSome, hfs, hL]
        rw [show split (wrapArr lm) [(k, c)] = some [(k, recon c (ravAll lm))] from
          splitGo_single_leaf hcl hleafc hnb k]
        rw [optionBindSome]
        simp only [python_unflatten, List.map_cons, List.map_nil]
        rw [← hvals, hu]
        rfl
    | cons p2 rest2 =>
        have hpfl : (python_flatten m).length = (flatLeaves s "").length := by
          rw [hpf, List.length_map, hlenL, ← hsnd, List.length_map]
        have hlen2 : 2 ≤ (python_flatten m).length := by
          rw [hpfl, hL]
          simp
        have hleafvals : ∀ x ∈ python_flatten m, isLeafVal x = true := by
          rw [hpf]
          intro x hx
          obtain ⟨y, hy, rfl⟩ := List.mem_map.mp hx
          have hy2 := origLeaves_leafVal m y hy
          cases y <;> simp_all [wrapArr, isLeafVal]
        have hcat := concatenate_multi hlen2 hleafvals
        rw [flatMap_ravelD_pyFlatten] at hcat
        have hsg := splitGo_success (flatLeaves s "") (ravAll m) 0
          (fun p hp => by
            have hmem : p.2 ∈ leafSpaces s := by
              rw [← hsnd]
              exact List.mem_map_of_mem Prod.snd hp
            exact leafSpaces_isLeaf s p.2 hmem)
          (by rw [sumSz_flatLeaves s m hconf ""]; omega)
        have hsm := splitModel_flatLeaves s m hconf "" [] []
        simp only [List.nil_append, List.append_nil, List.length_nil] at hsm
        refine ⟨m2, ?_, he⟩
        simp only [roundTrip]
        rw [hcat, optionBindSome, hfs]
        rw [show split (Sample.arr [(ravAll m).length] (ravAll m)) (flatLeaves s "") =
          some (splitModel (flatLeaves s "") (ravAll m) 0) from hsg]
        rw [optionBindSome]
        simp only [python_unflatten]
        rw [hsm, hu]
        rfl

/-- Witness for C1: the concrete scenario of the spec.  Schema
`{pos: Box(shape=(2,), float), hp: Discrete(10)}` with sample
`{pos: [1.0, 2.0], hp: 7}` flattens to the 3-element vector `[1, 2, 7]`, and
the round trip returns the sample exactly, `hp` as a plain integer. -/
theorem roundTrip_reproduces_witness :
    concatenate (python_flatten
        (Sample.dictS [("pos", Sample.arr [2] [1, 2]), ("hp", Sample.intS 7)])) =
      some (Sample.arr [3] [1, 2, 7]) ∧
    roundTrip (Space.dict [("pos", Space.box [2] .float64), ("hp", Space.discrete 10)])
        (Sample.dictS [("pos", Sample.arr [2] [1, 2]), ("hp", Sample.intS 7)]) =
      some (Sample.dictS [("pos", Sample.arr [2] [1, 2]), ("hp", Sample.intS 7)]) ∧
    (∃ out, roundTrip
        (Space.dict [("pos", Space.box [2] .float64), ("hp", Space.discrete 10)])
        (Sample.dictS [("pos", Sample.arr [2] [1, 2]), ("hp", Sample.intS 7)]) =
          some out ∧
      eqElem out (Sample.dictS [("pos", Sample.arr [2] [1, 2]), ("hp", Sample.intS 7)]) =
        true) :=
  ⟨rfl, rfl,
    roundTrip_reproduces
      (Space.dict [("pos", Space.box [2] .float64), ("hp", Space.discrete 10)])
      (Sample.dictS [("pos", Sample.arr [2] [1, 2]), ("hp", Sample.intS 7)])
      (by decide) (by decide) (by decide)⟩

end Emulation
